import Mathlib

/-!
# Verification of the esxtop-batch-data-visualizer extraction/parsing core

This file gives a shallow embedding, in Lean 4, of the core modules of the
`esxtop-batch-data-visualizer` repository:

* `src/esxtop_visualizer/parser.py`    — PDH-CSV header parsing, friendly
  names, column summarisation;
* `src/esxtop_visualizer/extractor.py` — single- and multi-column time-series
  extraction, series saving;
* `src/esxtop_visualizer/visualizer.py` — series-file loading.

Modelling conventions:

* Python strings are modelled as `List Char`.  File contents are modelled at
  the granularity the code consumes them: a CSV file is the list of rows that
  `csv.reader` yields (each row a list of cells), and a series file is its
  list of lines (without the trailing newline, which `str.strip` removes).
* Python `float` values are modelled by `Val`: exact rationals for finite
  values, plus `nan` and signed infinity.  Python parses decimal literals to
  the nearest IEEE double; the model keeps the literal's exact value.  The
  properties proved here do not depend on that rounding.  `str.lower`,
  `str.isdigit`-style checks are modelled over ASCII.
* `OrderedDict` / `dict` are modelled as association lists with
  Python-faithful insertion semantics: inserting an existing key updates the
  value in place (keeping the key's position), a new key is appended.
* Fallible operations (`float(...)`, `datetime.strptime`, line splitting)
  return `Option`; `load_data_file`'s zero-points failure is an `Except`.
-/

namespace EsxViz

/-! ## Basic string utilities (Python `str.strip`, `str.split`) -/

/-- `s.strip(bad)` in Python: remove *all* leading and trailing characters
satisfying `bad` (not just one layer). -/
def stripSet (bad : Char → Bool) (l : List Char) : List Char :=
  ((l.dropWhile bad).reverse.dropWhile bad).reverse

/-- Python `cell.strip('"')`: strip all leading/trailing double quotes. -/
def stripQuotes (l : List Char) : List Char :=
  stripSet (fun c => c = '"') l

/-- Python `line.strip()`: strip leading/trailing whitespace. -/
def pyStrip (l : List Char) : List Char :=
  stripSet Char.isWhitespace l

/-- Python `s.split(sep)` for a single-character separator `sep`. -/
def splitChar (sep : Char) : List Char → List (List Char)
  | [] => [[]]
  | c :: r =>
    if c = sep then [] :: splitChar sep r
    else
      match splitChar sep r with
      | [] => [[c]]
      | h :: t => (c :: h) :: t

/-- Python `s.split(": ")`, specialised to the two-character separator used
by the series-file format. -/
def splitCS : List Char → List (List Char)
  | ':' :: ' ' :: r => [] :: splitCS r
  | c :: r =>
    match splitCS r with
    | [] => [[c]]
    | h :: t => (c :: h) :: t
  | [] => [[]]

/-- Numeric value of an ASCII digit character. -/
def charVal (c : Char) : Nat := c.toNat - 48

/-- Value of a big-endian ASCII digit string (the way a chain of
`acc * 10 + digit` reads it). -/
def digitsToNat (l : List Char) : Nat :=
  l.foldl (fun a c => a * 10 + charVal c) 0

/-- ASCII lowercasing, modelling Python `str.lower` on the ASCII inputs the
code compares against (`nan`, `inf`, `infinity`). -/
def asciiLower (c : Char) : Char :=
  if 'A' ≤ c ∧ c ≤ 'Z' then Char.ofNat (c.toNat + 32) else c

/-! ## The timestamp regex of `extractor.py`

`TIMESTAMP_PATTERN = re.compile(r'\d{2}/\d{2}/\d{4} \d{2}:\d{2}:\d{2}')`,
used with `fullmatch`.  (Python `\d` also accepts non-ASCII digits; the
model restricts to ASCII digits, which is what esxtop emits.) -/

def isTimestamp (l : List Char) : Bool :=
  match l with
  | [a, b, '/', c, d, '/', e, f, g, h, ' ', i, j, ':', k, m, ':', n, p] =>
    a.isDigit && b.isDigit && c.isDigit && d.isDigit && e.isDigit &&
    f.isDigit && g.isDigit && h.isDigit && i.isDigit && j.isDigit &&
    k.isDigit && m.isDigit && n.isDigit && p.isDigit
  | _ => false

/-! ## Python `float(...)` -/

/-- Model of a Python `float` value: exact rational for finite values, plus
`nan` and signed infinities. -/
inductive Val where
  | num (q : ℚ)
  | nan
  | inf (neg : Bool)
  deriving DecidableEq

/-- Parse the optional exponent suffix of a float literal:
empty, or `e`/`E` followed by an optional sign and at least one digit,
consuming the whole remainder. -/
def parseExpSuffix (l : List Char) : Option ℤ :=
  match l with
  | [] => some 0
  | e :: r =>
    if e = 'e' ∨ e = 'E' then
      let (neg, r2) :=
        match r with
        | '-' :: r3 => (true, r3)
        | '+' :: r3 => (false, r3)
        | _ => (false, r)
      let ds := r2.takeWhile Char.isDigit
      if ds.isEmpty ∨ ¬(r2.dropWhile Char.isDigit).isEmpty then none
      else some (if neg then -(digitsToNat ds : ℤ) else (digitsToNat ds : ℤ))
    else none

/-- Parse the unsigned body of a Python float literal:
`digits [. digits] [exp]` or `. digits [exp]`, whole string. -/
def pyFloatCore (u : List Char) : Option ℚ :=
  let ip := u.takeWhile Char.isDigit
  let r1 := u.dropWhile Char.isDigit
  match r1 with
  | '.' :: r2 =>
    let fp := r2.takeWhile Char.isDigit
    let r3 := r2.dropWhile Char.isDigit
    if ip.isEmpty ∧ fp.isEmpty then none
    else
      (parseExpSuffix r3).map fun e =>
        ((digitsToNat ip : ℚ) + (digitsToNat fp : ℚ) / 10 ^ fp.length) * 10 ^ e
  | _ =>
    if ip.isEmpty then none
    else (parseExpSuffix r1).map fun e => (digitsToNat ip : ℚ) * 10 ^ e

/-- Consume an optional leading sign, reporting whether it was `-`. -/
def splitSign : List Char → Bool × List Char
  | '-' :: r => (true, r)
  | '+' :: r => (false, r)
  | t => (false, t)

/-- Model of Python `float(s)`: strip whitespace, optional sign, then
`nan` / `inf` / `infinity` (case-insensitive) or a numeric literal.
(Digit-group underscores and non-ASCII digits are outside the model.) -/
def pyFloat (s : List Char) : Option Val :=
  let sg := splitSign (pyStrip s)
  let u := sg.2
  if u.map asciiLower = String.toList "nan" then some Val.nan
  else if u.map asciiLower = String.toList "inf" ∨
          u.map asciiLower = String.toList "infinity" then some (Val.inf sg.1)
  else (pyFloatCore u).map fun q => Val.num (if sg.1 then -q else q)

/-- Python float multiplication (used by `load_data_file`'s `val * scale`). -/
def vmul : Val → Val → Val
  | Val.nan, _ => Val.nan
  | _, Val.nan => Val.nan
  | Val.num a, Val.num b => Val.num (a * b)
  | Val.inf s, Val.num b => if b = 0 then Val.nan else Val.inf (xor s (decide (b < 0)))
  | Val.num a, Val.inf s => if a = 0 then Val.nan else Val.inf (xor s (decide (a < 0)))
  | Val.inf s, Val.inf t => Val.inf (xor s t)

/-! ## Ordered dictionaries (Python `dict` / `OrderedDict`)

An association list with Python dict semantics: assigning to an existing key
updates its value in place (the key keeps its position), assigning a new key
appends it. -/

/-- Keys of an association list, in insertion order. -/
def odKeys {α β : Type} (d : List (α × β)) : List α := d.map Prod.fst

/-- Python `d[k]` as an `Option` (dict lookup). -/
def odLookup {α β : Type} [DecidableEq α] : List (α × β) → α → Option β
  | [], _ => none
  | p :: r, k => if p.1 = k then some p.2 else odLookup r k

/-- Replace the value at every entry with key `k` (at most one under the
no-duplicate-keys invariant the operations preserve). -/
def odReplace {α β : Type} [DecidableEq α] (k : α) (v : β) : List (α × β) → List (α × β)
  | [] => []
  | p :: r => if p.1 = k then (k, v) :: odReplace k v r else p :: odReplace k v r

/-- Python `d[k] = v`: update in place if `k` is present, else append. -/
def odInsert {α β : Type} [DecidableEq α] (d : List (α × β)) (k : α) (v : β) :
    List (α × β) :=
  if k ∈ odKeys d then odReplace k v d else d ++ [(k, v)]

/-! ## `extractor.py`: TimeSeriesData and column extraction -/

/-- `TimeSeriesData.data`: an insertion-ordered mapping from timestamp
strings to optional float values. -/
abbrev TimeSeriesData : Type := List (List Char × Option Val)

/-- `TimeSeriesData.add_point`: `self.data[timestamp] = value`. -/
def add_point (d : TimeSeriesData) (timestamp : List Char) (value : Option Val) :
    TimeSeriesData :=
  odInsert d timestamp value

/-- The timestamp-search loop shared by both extractors: scan the row's cells
left to right, strip quotes, return the first cell fully matching the
timestamp pattern. -/
def findTimestamp : List (List Char) → Option (List Char)
  | [] => none
  | cell :: r =>
    let c := stripQuotes cell
    if isTimestamp c then some c else findTimestamp r

/-- `float(row[column_index])` guarded by `except (IndexError, ValueError)`:
`none` when the index is out of range or the cell does not parse. -/
def parseCell (row : List (List Char)) (i : Nat) : Option Val :=
  row[i]?.bind pyFloat

/-- One loop iteration of `extract_column_data`: if the row has a timestamp,
record the (possibly missing) value of the target column. -/
def extractStep (i : Nat) (acc : TimeSeriesData) (row : List (List Char)) :
    TimeSeriesData :=
  match findTimestamp row with
  | none => acc
  | some t => add_point acc t (parseCell row i)

/-- `extract_column_data(filename, column_index)`, with the file modelled as
the list of rows `csv.reader` yields. -/
def extract_column_data (rows : List (List (List Char))) (i : Nat) : TimeSeriesData :=
  rows.foldl (extractStep i) []

/-- The per-row inner loop of `extract_multiple_columns`: for each requested
index, add the row's value for that column to that column's series. -/
def multiRowUpd (t : List Char) (row : List (List Char))
    (m : List (Nat × TimeSeriesData)) (i : Nat) : List (Nat × TimeSeriesData) :=
  odInsert m i (add_point ((odLookup m i).getD []) t (parseCell row i))

/-- One loop iteration of `extract_multiple_columns`: find the row's
timestamp; if present, update every requested column's series. -/
def multiStep (idxs : List Nat) (m : List (Nat × TimeSeriesData))
    (row : List (List Char)) : List (Nat × TimeSeriesData) :=
  match findTimestamp row with
  | none => m
  | some t => idxs.foldl (multiRowUpd t row) m

/-- `time_series_map = {idx: TimeSeriesData() for idx in column_indices}`. -/
def initMap (idxs : List Nat) : List (Nat × TimeSeriesData) :=
  idxs.foldl (fun m i => odInsert m i ([] : TimeSeriesData)) []

/-- `extract_multiple_columns(filename, column_indices)`: single pass over
the rows, one series per requested column index. -/
def extract_multiple_columns (rows : List (List (List Char))) (idxs : List Nat) :
    List (Nat × TimeSeriesData) :=
  rows.foldl (multiStep idxs) (initMap idxs)

/-! ## `parser.py`: header parsing, friendly names, summarisation -/

/-- `ColumnMetadata` dataclass of `parser.py`. -/
structure ColumnMetadata where
  index : Nat
  host : List Char
  category : List Char
  counter : List Char
  original : List Char
  deriving DecidableEq

/-- Python `sep.join(parts)` for a single-character separator. -/
def joinSep (sep : Char) : List (List Char) → List Char
  | [] => []
  | [x] => x
  | x :: y :: t => x ++ sep :: joinSep sep (y :: t)

/-- Python `pat in s` (contiguous substring containment). -/
def containsSub (pat : List Char) : List Char → Bool
  | [] => pat.isEmpty
  | c :: r => pat.isPrefixOf (c :: r) || containsSub pat r

/-- `col.startswith("(PDH-CSV")`. -/
def isPDHCell (col : List Char) : Bool :=
  (String.toList "(PDH-CSV").isPrefixOf col

/-- The per-cell body of `parse_csv_header`'s loop: strip quotes, skip
`(PDH-CSV...` marker cells, parse `\\host\category\counter[\...]` shapes,
leaving the three fields empty for anything else. -/
def parseHeaderCell (i : Nat) (cellRaw : List Char) : Option ColumnMetadata :=
  let col := stripQuotes cellRaw
  if isPDHCell col then none
  else if (String.toList "\\\\").isPrefixOf col then
    let parts := (splitChar '\\' col).drop 2
    if 2 ≤ parts.length then
      some { index := i
             host := ((splitChar '\\' col)[2]?).getD []
             category := (parts[1]?).getD []
             counter :=
               if 2 < parts.length then joinSep '\\' (parts.drop 2) else []
             original := col }
    else some { index := i, host := [], category := [], counter := [], original := col }
  else some { index := i, host := [], category := [], counter := [], original := col }

/-- The enumerated loop of `parse_csv_header`, starting at index `i`. -/
def parseHeaderFrom (i : Nat) : List (List Char) → List ColumnMetadata
  | [] => []
  | cell :: rest =>
    match parseHeaderCell i cell with
    | some cm => cm :: parseHeaderFrom (i + 1) rest
    | none => parseHeaderFrom (i + 1) rest

/-- `parse_csv_header(filename)`, with the file's header row modelled as the
list of cells `csv.reader` yields for the first row. -/
def parse_csv_header (header : List (List Char)) : List ColumnMetadata :=
  parseHeaderFrom 0 header

/-- Match of `re.search(r'Virtual Disk\(([^)]+)\)', s)` at one position:
the literal `Virtual Disk(`, then a nonempty run of non-`)` characters,
then `)`; returns the captured group. -/
def vdTokenAt (s : List Char) : Option (List Char) :=
  if (String.toList "Virtual Disk(").isPrefixOf s then
    let rest := s.drop 13
    let tok := rest.takeWhile (fun c => c ≠ ')')
    if tok.isEmpty then none
    else if tok.length < rest.length then some tok else none
  else none

/-- `re.search`: first position (left to right) where the pattern matches. -/
def vdSearch : List Char → Option (List Char)
  | [] => none
  | c :: r =>
    match vdTokenAt (c :: r) with
    | some t => some t
    | none => vdSearch r

/-- `ColumnMetadata.get_friendly_name`. -/
def get_friendly_name (c : ColumnMetadata) : List Char :=
  if containsSub (String.toList "Virtual Disk") c.category then
    match vdSearch c.category with
    | some vmdk => vmdk ++ String.toList " - " ++ c.counter
    | none =>
      if ¬c.counter.isEmpty then c.category ++ String.toList " - " ++ c.counter
      else c.original
  else
    if ¬c.counter.isEmpty then c.category ++ String.toList " - " ++ c.counter
    else c.original

/-! ### `summarize_columns`

`re.search(pattern, field, re.IGNORECASE)` for a fixed pattern is a function
of the field; the model abstracts each optional compiled pattern as an
optional Boolean matcher on the field. -/

/-- A column survives `summarize_columns`' filter loop: no `continue` fires,
i.e. every supplied pattern matches its field. -/
def passesFilters (catP cntP : Option (List Char → Bool)) (c : ColumnMetadata) : Bool :=
  (match catP with | some f => f c.category | none => true) &&
  (match cntP with | some f => f c.counter | none => true)

/-- The filter loop of `summarize_columns`: when at least one pattern is
supplied, keep only columns whose category matches the category pattern (if
supplied) and whose counter matches the counter pattern (if supplied). -/
def filterColumns (catP cntP : Option (List Char → Bool))
    (cols : List ColumnMetadata) : List ColumnMetadata :=
  if catP.isSome || cntP.isSome then cols.filter (passesFilters catP cntP)
  else cols

/-- `summarize_columns`, returning the three `Counter` tables as count
functions: by category (nonempty categories only), by counter (nonempty
counters only), and by (category, counter) pair (both nonempty). -/
def summarize_columns (cols : List ColumnMetadata)
    (catP cntP : Option (List Char → Bool)) :
    (List Char → Nat) × (List Char → Nat) × (List Char × List Char → Nat) :=
  let fc := filterColumns catP cntP cols
  ( fun s => ((fc.filter fun c => ¬c.category.isEmpty).map (fun c => c.category)).count s
  , fun s => ((fc.filter fun c => ¬c.counter.isEmpty).map (fun c => c.counter)).count s
  , fun p => ((fc.filter fun c => ¬c.category.isEmpty ∧ ¬c.counter.isEmpty).map
        (fun c => (c.category, c.counter))).count p )

/-- Case-insensitive substring matching: the semantics of
`re.search(pattern, s, re.IGNORECASE)` for patterns without regex
metacharacters (such as the literal `"Virtual Disk"`). -/
def icontains (pat : List Char) (s : List Char) : Bool :=
  containsSub (pat.map asciiLower) (s.map asciiLower)

/-! ## `datetime.strptime(ts, "%m/%d/%Y %H:%M:%S")`

CPython's `_strptime` compiles each directive to a small regex
(`%m`: `1[0-2]|0[1-9]|[1-9]`, `%d`: `3[01]|[12]\d|0[1-9]|[1-9]`,
`%Y`: `\d\d\d\d`, `%H`: `2[0-3]|[0-1]\d|\d`, `%M`: `[0-5]\d|\d`,
`%S`: `6[0-1]|[0-5]\d|\d`) and the `datetime` constructor then validates the
fields (year at least 1, day within the month, second at most 59).  Because
every separator in the format is a non-digit, committing to a two-digit
field whenever its two-digit alternative matches is equivalent to the
regex's backtracking. -/

structure Timestamp where
  month : Nat
  day : Nat
  year : Nat
  hour : Nat
  minute : Nat
  second : Nat
  deriving DecidableEq

/-- Parse a one-or-two-digit field: prefer two digits when they satisfy the
two-digit range test, else one digit satisfying the one-digit test. -/
def pdigit2 (v2 v1 : Nat → Bool) (s : List Char) : Option (Nat × List Char) :=
  match s with
  | a :: b :: r =>
    if a.isDigit && b.isDigit && v2 (charVal a * 10 + charVal b) then
      some (charVal a * 10 + charVal b, r)
    else if a.isDigit && v1 (charVal a) then some (charVal a, b :: r)
    else none
  | [a] => if a.isDigit && v1 (charVal a) then some (charVal a, []) else none
  | [] => none

/-- Parse exactly four digits (`%Y`). -/
def pdigit4 (s : List Char) : Option (Nat × List Char) :=
  match s with
  | a :: b :: c :: d :: r =>
    if a.isDigit && b.isDigit && c.isDigit && d.isDigit then
      some (charVal a * 1000 + charVal b * 100 + charVal c * 10 + charVal d, r)
    else none
  | _ => none

/-- Consume one expected literal character. -/
def expectChar (c : Char) (s : List Char) : Option (List Char) :=
  match s with
  | x :: r => if x = c then some r else none
  | [] => none

/-- Days in a month, with Gregorian leap years (`datetime` validation). -/
def daysInMonth (m y : Nat) : Nat :=
  if m = 2 then
    if y % 4 = 0 ∧ (y % 100 ≠ 0 ∨ y % 400 = 0) then 29 else 28
  else if m = 4 ∨ m = 6 ∨ m = 9 ∨ m = 11 then 30
  else 31

def strptime (s : List Char) : Option Timestamp :=
  (pdigit2 (fun n => decide (1 ≤ n ∧ n ≤ 12)) (fun n => decide (1 ≤ n ∧ n ≤ 9)) s).bind
    fun mo =>
  (expectChar '/' mo.2).bind fun r1 =>
  (pdigit2 (fun n => decide (1 ≤ n ∧ n ≤ 31)) (fun n => decide (1 ≤ n ∧ n ≤ 9)) r1).bind
    fun dy =>
  (expectChar '/' dy.2).bind fun r2 =>
  (pdigit4 r2).bind fun yr =>
  (expectChar ' ' yr.2).bind fun r3 =>
  (pdigit2 (fun n => decide (n ≤ 23)) (fun n => decide (n ≤ 9)) r3).bind fun hr =>
  (expectChar ':' hr.2).bind fun r4 =>
  (pdigit2 (fun n => decide (n ≤ 59)) (fun n => decide (n ≤ 9)) r4).bind fun mi =>
  (expectChar ':' mi.2).bind fun r5 =>
  (pdigit2 (fun n => decide (n ≤ 61)) (fun n => decide (n ≤ 9)) r5).bind fun sc =>
  if sc.2 = [] ∧ 1 ≤ yr.1 ∧ dy.1 ≤ daysInMonth mo.1 yr.1 ∧ sc.1 ≤ 59 then
    some ⟨mo.1, dy.1, yr.1, hr.1, mi.1, sc.1⟩
  else none

/-! ## Printing floats (Python `str`/f-string of a float)

`save_time_series` writes values with an f-string.  For a finite float
Python prints a decimal numeral that re-parses to exactly the same value
(switching to scientific notation only at extreme magnitudes, where the
exact-reparse property is the same).  The model prints positional decimal
notation; every IEEE double is a rational whose reduced denominator divides
a power of ten, which is the definedness condition below. -/

/-- Number of times `p` divides `n` (for `p ≥ 2`, `n ≥ 1`). -/
def pCount (p : Nat) : Nat → Nat → Nat
  | 0, _ => 0
  | fuel + 1, n => if n % p = 0 ∧ 2 ≤ n then 1 + pCount p fuel (n / p) else 0

/-- Exponent `k` with `den ∣ 10 ^ k` for denominators of the form
`2 ^ a * 5 ^ b` (take `k = a + b`). -/
def decExp (d : Nat) : Nat := pCount 2 d d + pCount 5 d d

/-- An ASCII digit character for `n < 10`. -/
def digitChar (n : Nat) : Char :=
  match n with
  | 0 => '0' | 1 => '1' | 2 => '2' | 3 => '3' | 4 => '4'
  | 5 => '5' | 6 => '6' | 7 => '7' | 8 => '8' | _ => '9'

/-- Big-endian decimal digits of `n` (fuel-based). -/
def natCharsAux : Nat → Nat → List Char
  | 0, _ => []
  | fuel + 1, n =>
    if n < 10 then [digitChar n]
    else natCharsAux fuel (n / 10) ++ [digitChar (n % 10)]

def natToChars (n : Nat) : List Char := natCharsAux (n + 1) n

/-- Left-pad a digit string with zeros to width `k`. -/
def padDigits (k : Nat) (l : List Char) : List Char :=
  List.replicate (k - l.length) '0' ++ l

/-- Positional decimal printing of a rational whose denominator divides a
power of ten (every finite Python float is of this form). -/
def reprQ (q : ℚ) : List Char :=
  let d := q.den
  let k := decExp d
  if d ∣ 10 ^ k then
    let a := q.num.natAbs
    let n := a * 10 ^ k / d
    (if q < 0 then ['-'] else []) ++
      natToChars (n / 10 ^ k) ++ '.' :: padDigits k (natToChars (n % 10 ^ k))
  else ['0']

/-- Python `str` of a float value (`f"{value}"` in `save_time_series`). -/
def reprVal : Val → List Char
  | Val.num q => reprQ q
  | Val.nan => String.toList "nan"
  | Val.inf true => String.toList "-inf"
  | Val.inf false => String.toList "inf"

/-! ## `save_time_series` and `load_data_file` -/

/-- The value text written by `save_time_series`: the float's `str` form, or
the literal `NaN` for a missing value. -/
def savedValChars : Option Val → List Char
  | some v => reprVal v
  | none => String.toList "NaN"

/-- `save_time_series`: one line per point, `"timestamp: value"`, with the
literal `NaN` for missing values.  The file is modelled as its line list. -/
def save_time_series (d : TimeSeriesData) : List (List Char) :=
  d.map fun p => p.1 ++ String.toList ": " ++ savedValChars p.2

/-- One loop body of `load_data_file`: strip the line, split on `": "` into
exactly two pieces, `strptime` the first, `float` the second times the
scale; any failure skips the line. -/
def parseLine (scale : Val) (line : List Char) : Option (Timestamp × Val) :=
  match splitCS (pyStrip line) with
  | [ts, v] =>
    match strptime ts, pyFloat v with
    | some t, some x => some (t, vmul x scale)
    | _, _ => none
  | _ => none

/-- The reading loop of `load_data_file`: parsed (timestamp, value) pairs in
line order, plus the count of skipped malformed lines. -/
def loadScan (scale : Val) : List (List Char) → List (Timestamp × Val) × Nat
  | [] => ([], 0)
  | line :: rest =>
    let r := loadScan scale rest
    match parseLine scale line with
    | some p => (p :: r.1, r.2)
    | none => (r.1, r.2 + 1)

/-- `load_data_file(data_file, scale)`: the parsed points (the code's
parallel `timestamps`/`values` lists, zipped), or an error when no line
parsed (`ValueError("No valid data points found in file")`). -/
def load_data_file (lines : List (List Char)) (scale : Val) :
    Except Unit (List (Timestamp × Val)) :=
  if (loadScan scale lines).1.isEmpty then Except.error ()
  else Except.ok (loadScan scale lines).1

/-! ## Derived notions used by the statements -/

/-- One step of first-occurrence deduplication (how insertion order of dict
keys accumulates). -/
def dedupStep {α : Type} [DecidableEq α] (ks : List α) (x : α) : List α :=
  if x ∈ ks then ks else ks ++ [x]

/-- The distinct elements of `l` in order of first occurrence: the key order
a Python dict ends up with after inserting the elements of `l` in turn. -/
def firstDedup {α : Type} [DecidableEq α] (l : List α) : List α :=
  l.foldl dedupStep []

/-- The series stored for column `i` in a multi-extraction result. -/
def tsOf (m : List (Nat × TimeSeriesData)) (i : Nat) : TimeSeriesData :=
  (odLookup m i).getD []

/-- Whether the header row's first cell is a `(PDH-CSV...` marker cell. -/
def headIsPDH (header : List (List Char)) : Bool :=
  match header.head? with
  | some c => isPDHCell (stripQuotes c)
  | none => false

/-- Strip at most a single pair of enclosing double quotes. -/
def stripOnePair (l : List Char) : List Char :=
  if 2 ≤ l.length ∧ l.head? = some '"' ∧ l.getLast? = some '"' then
    (l.drop 1).dropLast
  else l

/-- Modelled from the spec: the header-cell transformation exactly as claim
C3 describes it, for comparison against `parseHeaderCell` — strip at most a
single pair of enclosing double quotes; for a cell beginning with a double
backslash, split on backslash, discard the first two (empty) segments, take
the third segment as host unconditionally, and make category and counter
empty when fewer than 2 segments remain after host, else the next segment
is category and the remaining segments rejoined with backslash are counter. -/
def parseHeaderCellClaimed (i : Nat) (cellRaw : List Char) : ColumnMetadata :=
  let col := stripOnePair cellRaw
  if (String.toList "\\\\").isPrefixOf col then
    let parts := (splitChar '\\' col).drop 2
    let host := (parts[0]?).getD []
    let rest := parts.drop 1
    if rest.length < 2 then
      { index := i, host := host, category := [], counter := [], original := col }
    else
      { index := i, host := host, category := (rest[0]?).getD []
        counter := joinSep '\\' (rest.drop 1), original := col }
  else { index := i, host := [], category := [], counter := [], original := col }

instance : DecidableEq (Except Unit (List (Timestamp × Val))) :=
  fun a b =>
    match a, b with
    | Except.error x, Except.error y => isTrue (by cases x; cases y; rfl)
    | Except.ok x, Except.ok y =>
      if h : x = y then isTrue (by rw [h]) else isFalse (by intro hh; cases hh; exact h rfl)
    | Except.error _, Except.ok _ => isFalse (by intro h; cases h)
    | Except.ok _, Except.error _ => isFalse (by intro h; cases h)

/-- The ten ASCII digit characters. -/
def digitChars : List Char :=
  ['0', '1', '2', '3', '4', '5', '6', '7', '8', '9']

/-- No occurrence of the two-character separator `": "` (the condition under
which `str.split(": ")` leaves a piece intact). -/
def noCS : List Char → Bool
  | [] => true
  | [_] => true
  | a :: b :: r => !decide (a = ':' ∧ b = ' ') && noCS (b :: r)

/-- A rational whose reduced denominator divides a power of ten (true of
every finite IEEE double, hence of every value a Python float can hold). -/
def decimalDen (q : ℚ) : Bool := decide (q.den ∣ 10 ^ decExp q.den)

/-- The stored values for which the model's positional printer is exact:
everything except finite rationals outside the decimal-denominator
fragment, which no Python float produces. -/
def valWritable : Option Val → Bool
  | none => true
  | some (Val.num q) => decimalDen q
  | some Val.nan => true
  | some (Val.inf _) => true

/-- The timestamp `load_data_file` recovers from a stored timestamp text. -/
def loadedStamp (ts : List Char) : Timestamp :=
  (strptime ts).getD ⟨1, 1, 1, 0, 0, 0⟩

/-- The float value the round trip actually reproduces for a stored point:
the stored finite value, or the float `nan` that `float("NaN")` yields for
a missing value. -/
def unOptVal : Option Val → Val
  | some x => x
  | none => Val.nan

/-- What the round trip actually reproduces per point. -/
def loadedExpected (d : TimeSeriesData) : List (Timestamp × Val) :=
  d.map fun p => (loadedStamp p.1, unOptVal p.2)

/-- Modelled from the spec: claim C2's statement that saving and loading at
scale 1.0 reproduces the original (timestamp, value) pairs in order,
substituting `None` for every point whose written line carried the literal
token `NaN` — i.e. the loaded value sequence, seen as optional values,
equals the original optional values. -/
def roundTripAsClaimed (d : TimeSeriesData) : Prop :=
  (loadScan (Val.num 1) (save_time_series d)).1.map (fun q => (q.1, some q.2)) =
    d.map fun p => (loadedStamp p.1, p.2)

/-! ## Laws of the ordered-dictionary model -/

theorem odKeys_cons {α β : Type} (p : α × β) (r : List (α × β)) :
    odKeys (p :: r) = p.1 :: odKeys r := rfl

theorem odKeys_append {α β : Type} (d e : List (α × β)) :
    odKeys (d ++ e) = odKeys d ++ odKeys e := by
  simp [odKeys]

theorem mem_odKeys {α β : Type} [DecidableEq α] (d : List (α × β)) (k : α) :
    k ∈ odKeys d ↔ (odLookup d k).isSome := by
  induction d with
  | nil => simp [odKeys, odLookup]
  | cons p r ih =>
    rw [odKeys_cons, List.mem_cons]
    by_cases h : p.1 = k
    · simp [odLookup, h]
    · have h2 : k ≠ p.1 := fun e => h e.symm
      simp [odLookup, h, h2, ih]

theorem odKeys_odReplace {α β : Type} [DecidableEq α] (d : List (α × β)) (k : α) (v : β) :
    odKeys (odReplace k v d) = odKeys d := by
  induction d with
  | nil => rfl
  | cons p r ih =>
    by_cases h : p.1 = k
    · rw [odReplace, if_pos h, odKeys_cons, odKeys_cons, ih, h]
    · rw [odReplace, if_neg h, odKeys_cons, odKeys_cons, ih]

theorem odLookup_odReplace_self {α β : Type} [DecidableEq α] (d : List (α × β))
    (k : α) (v : β) (hk : k ∈ odKeys d) : odLookup (odReplace k v d) k = some v := by
  induction d with
  | nil => simp [odKeys] at hk
  | cons p r ih =>
    by_cases h : p.1 = k
    · rw [odReplace, if_pos h]; simp [odLookup]
    · rw [odKeys_cons, List.mem_cons] at hk
      rcases hk with hk | hk
      · exact absurd hk.symm h
      · rw [odReplace, if_neg h]
        simpa [odLookup, h] using ih hk

theorem odLookup_odReplace_ne {α β : Type} [DecidableEq α] (d : List (α × β))
    (k k' : α) (v : β) (hne : k' ≠ k) :
    odLookup (odReplace k v d) k' = odLookup d k' := by
  induction d with
  | nil => rfl
  | cons p r ih =>
    by_cases h : p.1 = k
    · rw [odReplace, if_pos h, odLookup, odLookup, if_neg (Ne.symm hne), ih,
        if_neg (h ▸ Ne.symm hne)]
    · rw [odReplace, if_neg h, odLookup, odLookup, ih]

theorem odReplace_eq_self {α β : Type} [DecidableEq α] (d : List (α × β))
    (k : α) (v : β) (hk : k ∉ odKeys d) : odReplace k v d = d := by
  induction d with
  | nil => rfl
  | cons p r ih =>
    rw [odKeys_cons, List.mem_cons] at hk
    push_neg at hk
    rw [odReplace, if_neg (fun e => hk.1 e.symm), ih hk.2]

theorem odKeys_odInsert {α β : Type} [DecidableEq α] (d : List (α × β)) (k : α) (v : β) :
    odKeys (odInsert d k v) =
      if k ∈ odKeys d then odKeys d else odKeys d ++ [k] := by
  unfold odInsert
  by_cases h : k ∈ odKeys d
  · rw [if_pos h, if_pos h, odKeys_odReplace]
  · rw [if_neg h, if_neg h, odKeys_append]; rfl

theorem odLookup_append_fresh {α β : Type} [DecidableEq α] (d : List (α × β))
    (k : α) (v : β) (hk : k ∉ odKeys d) : odLookup (d ++ [(k, v)]) k = some v := by
  induction d with
  | nil => simp [odLookup]
  | cons p r ih =>
    rw [odKeys_cons, List.mem_cons] at hk
    push_neg at hk
    rw [List.cons_append, odLookup, if_neg (fun e => hk.1 e.symm)]
    exact ih hk.2

theorem odLookup_append_other {α β : Type} [DecidableEq α] (d : List (α × β))
    (k k' : α) (v : β) (hne : k' ≠ k) :
    odLookup (d ++ [(k, v)]) k' = odLookup d k' := by
  induction d with
  | nil => simp [odLookup, Ne.symm hne]
  | cons p r ih =>
    by_cases h : p.1 = k'
    · simp [odLookup, h]
    · simp [odLookup, h, ih]

theorem odLookup_odInsert_self {α β : Type} [DecidableEq α] (d : List (α × β))
    (k : α) (v : β) : odLookup (odInsert d k v) k = some v := by
  unfold odInsert
  by_cases h : k ∈ odKeys d
  · rw [if_pos h]; exact odLookup_odReplace_self d k v h
  · rw [if_neg h]; exact odLookup_append_fresh d k v h

theorem odLookup_odInsert_ne {α β : Type} [DecidableEq α] (d : List (α × β))
    (k k' : α) (v : β) (hne : k' ≠ k) :
    odLookup (odInsert d k v) k' = odLookup d k' := by
  unfold odInsert
  by_cases h : k ∈ odKeys d
  · rw [if_pos h]; exact odLookup_odReplace_ne d k k' v hne
  · rw [if_neg h]; exact odLookup_append_other d k k' v hne

theorem odReplace_odReplace {α β : Type} [DecidableEq α] (d : List (α × β))
    (k : α) (v : β) : odReplace k v (odReplace k v d) = odReplace k v d := by
  induction d with
  | nil => rfl
  | cons p r ih =>
    by_cases h : p.1 = k
    · simp [odReplace, h, ih]
    · simp [odReplace, h, ih]

theorem odReplace_append {α β : Type} [DecidableEq α] (d e : List (α × β))
    (k : α) (v : β) :
    odReplace k v (d ++ e) = odReplace k v d ++ odReplace k v e := by
  induction d with
  | nil => rfl
  | cons p r ih =>
    by_cases h : p.1 = k
    · simp [odReplace, h, ih]
    · simp [odReplace, h, ih]

theorem odInsert_idem {α β : Type} [DecidableEq α] (d : List (α × β))
    (k : α) (v : β) : odInsert (odInsert d k v) k v = odInsert d k v := by
  have hmem : k ∈ odKeys (odInsert d k v) := by
    rw [odKeys_odInsert]
    by_cases h : k ∈ odKeys d
    · rwa [if_pos h]
    · rw [if_neg h]; simp
  by_cases h : k ∈ odKeys d
  · conv_lhs => rw [odInsert, if_pos hmem]
    conv_lhs => rw [odInsert, if_pos h]
    conv_rhs => rw [odInsert, if_pos h]
    exact odReplace_odReplace d k v
  · conv_lhs => rw [odInsert, if_pos hmem]
    conv_lhs => rw [odInsert, if_neg h]
    conv_rhs => rw [odInsert, if_neg h]
    rw [odReplace_append, odReplace_eq_self d k v h, odReplace, if_pos rfl, odReplace]

theorem odKeys_nodup_odInsert {α β : Type} [DecidableEq α] (d : List (α × β))
    (k : α) (v : β) (h : (odKeys d).Nodup) : (odKeys (odInsert d k v)).Nodup := by
  rw [odKeys_odInsert]
  by_cases hk : k ∈ odKeys d
  · simp [hk, h]
  · simp [hk, List.nodup_append, h]

/-! ## Single-column extraction lemmas -/

theorem extractStep_of_none {i : Nat} {acc : TimeSeriesData} {row : List (List Char)}
    (h : findTimestamp row = none) : extractStep i acc row = acc := by
  unfold extractStep; rw [h]

theorem extractStep_of_some {i : Nat} {acc : TimeSeriesData} {row : List (List Char)}
    {t : List Char} (h : findTimestamp row = some t) :
    extractStep i acc row = add_point acc t (parseCell row i) := by
  unfold extractStep; rw [h]

theorem odKeys_add_point (d : TimeSeriesData) (t : List Char) (v : Option Val) :
    odKeys (add_point d t v) = dedupStep (odKeys d) t := by
  unfold add_point dedupStep
  exact odKeys_odInsert d t v

theorem odKeys_foldl_extractStep (i : Nat) (rows : List (List (List Char))) :
    ∀ acc : TimeSeriesData,
      odKeys (rows.foldl (extractStep i) acc) =
        (rows.filterMap findTimestamp).foldl dedupStep (odKeys acc) := by
  induction rows with
  | nil => intro acc; rfl
  | cons row rest ih =>
    intro acc
    cases h : findTimestamp row with
    | none =>
      rw [List.foldl_cons, extractStep_of_none h, List.filterMap_cons, h, ih]
    | some t =>
      rw [List.foldl_cons, extractStep_of_some h, List.filterMap_cons, h,
        List.foldl_cons, ih, odKeys_add_point]

theorem odKeys_extract_column_data (rows : List (List (List Char))) (i : Nat) :
    odKeys (extract_column_data rows i) = firstDedup (rows.filterMap findTimestamp) :=
  odKeys_foldl_extractStep i rows []

theorem nodup_foldl_dedupStep {α : Type} [DecidableEq α] (l : List α) :
    ∀ ks : List α, ks.Nodup → (l.foldl dedupStep ks).Nodup := by
  induction l with
  | nil => intro ks h; exact h
  | cons x r ih =>
    intro ks h
    rw [List.foldl_cons]
    refine ih _ ?_
    unfold dedupStep
    by_cases hx : x ∈ ks
    · rwa [if_pos hx]
    · rw [if_neg hx]; simp [List.nodup_append, h, hx]

theorem nodup_firstDedup {α : Type} [DecidableEq α] (l : List α) :
    (firstDedup l).Nodup :=
  nodup_foldl_dedupStep l [] List.nodup_nil

theorem nodup_odKeys_extract (rows : List (List (List Char))) (i : Nat) :
    (odKeys (extract_column_data rows i)).Nodup := by
  rw [odKeys_extract_column_data]
  exact nodup_firstDedup _

theorem parseCell_of_short {row : List (List Char)} {i : Nat}
    (h : row.length ≤ i) : parseCell row i = none := by
  unfold parseCell
  rw [List.getElem?_eq_none h]
  rfl

theorem mem_odReplace {α β : Type} [DecidableEq α] {d : List (α × β)}
    {k : α} {v : β} {p : α × β} (hp : p ∈ odReplace k v d) :
    p ∈ d ∨ p = (k, v) := by
  induction d with
  | nil => simp [odReplace] at hp
  | cons q r ih =>
    by_cases h : q.1 = k
    · rw [odReplace, if_pos h] at hp
      rcases List.mem_cons.mp hp with hp | hp
      · right; exact hp
      · rcases ih hp with hp | hp
        · left; exact List.mem_cons_of_mem _ hp
        · right; exact hp
    · rw [odReplace, if_neg h] at hp
      rcases List.mem_cons.mp hp with hp | hp
      · left; exact hp ▸ List.mem_cons_self _ _
      · rcases ih hp with hp | hp
        · left; exact List.mem_cons_of_mem _ hp
        · right; exact hp

theorem mem_odInsert {α β : Type} [DecidableEq α] {d : List (α × β)}
    {k : α} {v : β} {p : α × β} (hp : p ∈ odInsert d k v) :
    p ∈ d ∨ p = (k, v) := by
  unfold odInsert at hp
  by_cases h : k ∈ odKeys d
  · rw [if_pos h] at hp; exact mem_odReplace hp
  · rw [if_neg h] at hp
    rcases List.mem_append.mp hp with hp | hp
    · left; exact hp
    · right; simpa using hp

theorem values_none_foldl_extractStep {i : Nat} (rows : List (List (List Char)))
    (hshort : ∀ row ∈ rows, row.length ≤ i) :
    ∀ acc : TimeSeriesData, (∀ p ∈ acc, p.2 = none) →
      ∀ p ∈ rows.foldl (extractStep i) acc, p.2 = none := by
  induction rows with
  | nil => intro acc hacc; exact hacc
  | cons row rest ih =>
    intro acc hacc
    have hrest : ∀ r ∈ rest, r.length ≤ i := fun r hr =>
      hshort r (List.mem_cons_of_mem _ hr)
    rw [List.foldl_cons]
    refine ih hrest _ ?_
    cases h : findTimestamp row with
    | none => rw [extractStep_of_none h]; exact hacc
    | some t =>
      rw [extractStep_of_some h,
        parseCell_of_short (hshort row (List.mem_cons_self _ _))]
      intro p hp
      rcases mem_odInsert hp with hp | hp
      · exact hacc p hp
      · rw [hp]

theorem values_none_extract (rows : List (List (List Char))) (i : Nat)
    (hshort : ∀ row ∈ rows, row.length ≤ i) :
    ∀ p ∈ extract_column_data rows i, p.2 = none :=
  values_none_foldl_extractStep rows hshort [] (by intro p hp; simp at hp)

/-! ## Multi-column extraction lemmas -/

theorem multiStep_of_none {idxs : List Nat} {m : List (Nat × TimeSeriesData)}
    {row : List (List Char)} (h : findTimestamp row = none) :
    multiStep idxs m row = m := by
  unfold multiStep; rw [h]

theorem multiStep_of_some {idxs : List Nat} {m : List (Nat × TimeSeriesData)}
    {row : List (List Char)} {t : List Char} (h : findTimestamp row = some t) :
    multiStep idxs m row = idxs.foldl (multiRowUpd t row) m := by
  unfold multiStep; rw [h]

theorem some_getD {α : Type} {o : Option α} {d : α} (h : o.isSome) :
    some (o.getD d) = o := by
  cases o with
  | none => cases h
  | some x => rfl

/-- Effect of the per-row inner loop over the requested indices on each
key's series: every index in the list gets the row's point for its column
added once (a duplicated index re-adds the identical point, which is a
no-op); other keys are untouched. -/
theorem odLookup_foldl_multiRowUpd (t : List Char) (row : List (List Char)) :
    ∀ (J : List Nat) (m : List (Nat × TimeSeriesData)),
      (∀ j ∈ J, (odLookup m j).isSome) →
      ∀ i : Nat,
        odLookup (J.foldl (multiRowUpd t row) m) i =
          if i ∈ J then
            some (add_point ((odLookup m i).getD []) t (parseCell row i))
          else odLookup m i := by
  intro J
  induction J with
  | nil => intro m hm i; simp
  | cons j J2 ih =>
    intro m hm i
    rw [List.foldl_cons]
    set m2 := multiRowUpd t row m j with hm2
    have hlook2 : ∀ i2 : Nat, odLookup m2 i2 =
        if i2 = j then
          some (add_point ((odLookup m j).getD []) t (parseCell row j))
        else odLookup m i2 := by
      intro i2
      by_cases h : i2 = j
      · rw [if_pos h, hm2, h]
        exact odLookup_odInsert_self m j _
      · rw [if_neg h, hm2]
        exact odLookup_odInsert_ne m j i2 _ h
    have hsome2 : ∀ j2 ∈ J2, (odLookup m2 j2).isSome := by
      intro j2 hj2
      rw [hlook2 j2]
      by_cases h : j2 = j
      · rw [if_pos h]; rfl
      · rw [if_neg h]; exact hm j2 (List.mem_cons_of_mem _ hj2)
    rw [ih m2 hsome2 i]
    by_cases hiJ2 : i ∈ J2
    · rw [if_pos hiJ2, if_pos (List.mem_cons_of_mem _ hiJ2)]
      by_cases h : i = j
      · subst h
        rw [hlook2 i, if_pos rfl]
        unfold add_point
        rw [Option.getD_some, odInsert_idem]
      · rw [hlook2 i, if_neg h]
    · rw [if_neg hiJ2]
      by_cases h : i = j
      · subst h
        rw [hlook2 i, if_pos rfl, if_pos (List.mem_cons_self _ _)]
      · rw [hlook2 i, if_neg h,
          if_neg (by rw [List.mem_cons]; push_neg; exact ⟨h, hiJ2⟩)]

/-- The multi-column scan, started from any map containing every requested
index, computes for each requested index exactly the single-column fold
started from that index's current series. -/
theorem odLookup_foldl_multiStep (idxs : List Nat) :
    ∀ (rows : List (List (List Char))) (m : List (Nat × TimeSeriesData)),
      (∀ j ∈ idxs, (odLookup m j).isSome) →
      ∀ i ∈ idxs,
        odLookup (rows.foldl (multiStep idxs) m) i =
          some (rows.foldl (extractStep i) ((odLookup m i).getD [])) := by
  intro rows
  induction rows with
  | nil =>
    intro m hm i hi
    simp only [List.foldl_nil]
    exact (some_getD (hm i hi)).symm ▸ rfl
  | cons row rest ih =>
    intro m hm i hi
    rw [List.foldl_cons, List.foldl_cons]
    cases h : findTimestamp row with
    | none =>
      rw [multiStep_of_none h, extractStep_of_none h]
      exact ih m hm i hi
    | some t =>
      rw [multiStep_of_some h]
      set m2 := idxs.foldl (multiRowUpd t row) m with hm2
      have hchar := odLookup_foldl_multiRowUpd t row idxs m hm
      have hsome2 : ∀ j ∈ idxs, (odLookup m2 j).isSome := by
        intro j hj
        rw [hm2, hchar j, if_pos hj]; rfl
      rw [ih m2 hsome2 i hi, hm2, hchar i, if_pos hi]
      rw [extractStep_of_some h, Option.getD_some]

theorem odLookup_foldl_blank (idxs : List Nat) :
    ∀ (m : List (Nat × TimeSeriesData)) (i : Nat),
      odLookup (idxs.foldl (fun m j => odInsert m j ([] : TimeSeriesData)) m) i =
        if i ∈ idxs then some [] else odLookup m i := by
  induction idxs with
  | nil => intro m i; simp
  | cons j J2 ih =>
    intro m i
    rw [List.foldl_cons, ih]
    by_cases hiJ2 : i ∈ J2
    · rw [if_pos hiJ2, if_pos (List.mem_cons_of_mem _ hiJ2)]
    · rw [if_neg hiJ2]
      by_cases h : i = j
      · subst h
        rw [if_pos (List.mem_cons_self _ _)]
        exact odLookup_odInsert_self m i []
      · rw [if_neg (by rw [List.mem_cons]; push_neg; exact ⟨h, hiJ2⟩)]
        exact odLookup_odInsert_ne m j i [] h

theorem odLookup_initMap (idxs : List Nat) (i : Nat) :
    odLookup (initMap idxs) i = if i ∈ idxs then some [] else none := by
  unfold initMap
  rw [odLookup_foldl_blank]
  rfl

/-- Core agreement: looking up any requested index in the one-pass
multi-column result gives exactly the independent single-column result. -/
theorem emc_lookup (rows : List (List (List Char))) (idxs : List Nat)
    (i : Nat) (hi : i ∈ idxs) :
    odLookup (extract_multiple_columns rows idxs) i =
      some (extract_column_data rows i) := by
  unfold extract_multiple_columns extract_column_data
  have hm : ∀ j ∈ idxs, (odLookup (initMap idxs) j).isSome := by
    intro j hj
    rw [odLookup_initMap, if_pos hj]; rfl
  rw [odLookup_foldl_multiStep idxs rows (initMap idxs) hm i hi,
    odLookup_initMap, if_pos hi]
  rfl

theorem mem_dedupStep {α : Type} [DecidableEq α] {ks : List α} {x y : α} :
    x ∈ dedupStep ks y ↔ x ∈ ks ∨ x = y := by
  unfold dedupStep
  by_cases h : y ∈ ks
  · rw [if_pos h]
    constructor
    · exact Or.inl
    · rintro (hx | rfl)
      · exact hx
      · exact h
  · rw [if_neg h]
    simp

theorem mem_foldl_dedupStep {α : Type} [DecidableEq α] (l : List α) :
    ∀ (ks : List α) (x : α), x ∈ l.foldl dedupStep ks ↔ x ∈ ks ∨ x ∈ l := by
  induction l with
  | nil => intro ks x; simp
  | cons y r ih =>
    intro ks x
    rw [List.foldl_cons, ih, mem_dedupStep, List.mem_cons]
    tauto

theorem mem_firstDedup {α : Type} [DecidableEq α] (l : List α) (x : α) :
    x ∈ firstDedup l ↔ x ∈ l := by
  unfold firstDedup
  rw [mem_foldl_dedupStep]
  simp

theorem odKeys_foldl_blank (idxs : List Nat) :
    ∀ m : List (Nat × TimeSeriesData),
      odKeys (idxs.foldl (fun m j => odInsert m j ([] : TimeSeriesData)) m) =
        idxs.foldl dedupStep (odKeys m) := by
  induction idxs with
  | nil => intro m; rfl
  | cons j J2 ih =>
    intro m
    rw [List.foldl_cons, List.foldl_cons, ih, odKeys_odInsert]
    rfl

theorem odKeys_initMap (idxs : List Nat) :
    odKeys (initMap idxs) = firstDedup idxs := by
  unfold initMap firstDedup
  rw [odKeys_foldl_blank]
  rfl

theorem odKeys_foldl_multiRowUpd (t : List Char) (row : List (List Char)) :
    ∀ (J : List Nat) (m : List (Nat × TimeSeriesData)),
      (∀ j ∈ J, j ∈ odKeys m) →
      odKeys (J.foldl (multiRowUpd t row) m) = odKeys m := by
  intro J
  induction J with
  | nil => intro m _; rfl
  | cons j J2 ih =>
    intro m hm
    rw [List.foldl_cons]
    have hkeys : odKeys (multiRowUpd t row m j) = odKeys m := by
      unfold multiRowUpd
      rw [odKeys_odInsert, if_pos (hm j (List.mem_cons_self _ _))]
    rw [ih _ (by rw [hkeys]; exact fun j2 hj2 => hm j2 (List.mem_cons_of_mem _ hj2)),
      hkeys]

theorem odKeys_foldl_multiStep (idxs : List Nat) :
    ∀ (rows : List (List (List Char))) (m : List (Nat × TimeSeriesData)),
      (∀ j ∈ idxs, j ∈ odKeys m) →
      odKeys (rows.foldl (multiStep idxs) m) = odKeys m := by
  intro rows
  induction rows with
  | nil => intro m _; rfl
  | cons row rest ih =>
    intro m hm
    rw [List.foldl_cons]
    cases h : findTimestamp row with
    | none =>
      rw [multiStep_of_none h]
      exact ih m hm
    | some t =>
      rw [multiStep_of_some h]
      have hkeys := odKeys_foldl_multiRowUpd t row idxs m hm
      rw [ih _ (by rw [hkeys]; exact hm), hkeys]

theorem odKeys_emc (rows : List (List (List Char))) (idxs : List Nat) :
    odKeys (extract_multiple_columns rows idxs) = firstDedup idxs := by
  unfold extract_multiple_columns
  rw [odKeys_foldl_multiStep idxs rows (initMap idxs)
    (by
      intro j hj
      rw [odKeys_initMap, mem_firstDedup]
      exact hj),
    odKeys_initMap]

theorem emc_lookup_not_requested (rows : List (List (List Char)))
    (idxs : List Nat) (i : Nat) (hi : i ∉ idxs) :
    odLookup (extract_multiple_columns rows idxs) i = none := by
  have hmem : i ∉ odKeys (extract_multiple_columns rows idxs) := by
    rw [odKeys_emc, mem_firstDedup]
    exact hi
  rw [mem_odKeys] at hmem
  cases h : odLookup (extract_multiple_columns rows idxs) i with
  | none => rfl
  | some d => rw [h] at hmem; exact absurd rfl hmem

/-! ## Claim theorems: extraction (C1, C5, C9, C10) -/

/-- C1: for every source file (modelled as its parsed row list) with no
duplicate timestamps and every list of requested column indices,
`extract_multiple_columns` stores, for each requested index, exactly the
same `TimeSeriesData` — same timestamp keys, same values, same order — as
an independent `extract_column_data` run for that index on the same rows. -/
theorem extract_multiple_columns_agrees_single
    (rows : List (List (List Char))) (idxs : List Nat)
    (hnodup : (rows.filterMap findTimestamp).Nodup)
    (i : Nat) (hi : i ∈ idxs) :
    odLookup (extract_multiple_columns rows idxs) i =
      some (extract_column_data rows i) :=
  emc_lookup rows idxs i hi

theorem extract_multiple_columns_agrees_single_witness :
    odLookup
        (extract_multiple_columns
          [[String.toList "\"01/15/2024 09:30:00\"", String.toList "1.5"],
           [String.toList "\"01/15/2024 09:30:05\"", String.toList "oops"]]
          [1, 7])
        1 =
      some (extract_column_data
        [[String.toList "\"01/15/2024 09:30:00\"", String.toList "1.5"],
         [String.toList "\"01/15/2024 09:30:05\"", String.toList "oops"]]
        1) :=
  extract_multiple_columns_agrees_single _ [1, 7] (by decide) 1 (by decide)

/-- C5: in any row where a timestamp cell is found, extraction records the
parsed float of the requested column's cell when it parses, and records a
missing value (`None`) when the index is out of range or the cell fails
float parsing; consequently requesting an index beyond every row's width
yields a series whose every point is `None` — for both the single-column
and the multi-column extractor (the model is total, so no exception can
escape). -/
theorem extraction_degrades_to_missing :
    (∀ (row : List (List Char)) (acc : TimeSeriesData) (i : Nat) (t : List Char),
        findTimestamp row = some t →
          (∀ (cell : List Char) (v : Val), row[i]? = some cell → pyFloat cell = some v →
              odLookup (extractStep i acc row) t = some (some v)) ∧
          (∀ cell : List Char, row[i]? = some cell → pyFloat cell = none →
              odLookup (extractStep i acc row) t = some none) ∧
          (row.length ≤ i → odLookup (extractStep i acc row) t = some none)) ∧
    (∀ (rows : List (List (List Char))) (i : Nat),
        (∀ row ∈ rows, row.length ≤ i) →
        ∀ p ∈ extract_column_data rows i, p.2 = none) ∧
    (∀ (rows : List (List (List Char))) (idxs : List Nat) (i : Nat),
        i ∈ idxs → (∀ row ∈ rows, row.length ≤ i) →
        ∀ p ∈ tsOf (extract_multiple_columns rows idxs) i, p.2 = none) := by
  refine ⟨?_, ?_, ?_⟩
  · intro row acc i t ht
    rw [extractStep_of_some ht]
    refine ⟨?_, ?_, ?_⟩
    · intro cell v hcell hv
      unfold add_point
      have : parseCell row i = some v := by
        unfold parseCell; rw [hcell]; exact hv
      rw [this]
      exact odLookup_odInsert_self acc t (some v)
    · intro cell hcell hv
      unfold add_point
      have : parseCell row i = none := by
        unfold parseCell; rw [hcell]; exact hv
      rw [this]
      exact odLookup_odInsert_self acc t none
    · intro hlen
      unfold add_point
      rw [parseCell_of_short hlen]
      exact odLookup_odInsert_self acc t none
  · exact values_none_extract
  · intro rows idxs i hi hshort
    unfold tsOf
    rw [emc_lookup rows idxs i hi, Option.getD_some]
    exact values_none_extract rows i hshort

theorem extraction_degrades_to_missing_witness :
    odLookup
        (extractStep 1 []
          [String.toList "\"01/15/2024 09:30:00\"", String.toList "oops"])
        (String.toList "01/15/2024 09:30:00") =
      some none :=
  ((extraction_degrades_to_missing.1
      [String.toList "\"01/15/2024 09:30:00\"", String.toList "oops"] [] 1
      (String.toList "01/15/2024 09:30:00") (by decide)).2.1
    (String.toList "oops") (by decide) (by decide))

/-- C9: extracted series contain no duplicate timestamp keys: `add_point`
on an existing timestamp overwrites the stored value (last write wins)
without growing the key list, every single-extraction result has
duplicate-free keys, and the iteration order of the container is the row
scan order of the file (first occurrence of each timestamp). -/
theorem timeseries_no_duplicate_keys :
    (∀ (d : TimeSeriesData) (t : List Char) (v : Option Val),
        t ∈ odKeys d →
          odKeys (add_point d t v) = odKeys d ∧
          odLookup (add_point d t v) t = some v) ∧
    (∀ (rows : List (List (List Char))) (i : Nat),
        (odKeys (extract_column_data rows i)).Nodup ∧
        odKeys (extract_column_data rows i) =
          firstDedup (rows.filterMap findTimestamp)) := by
  constructor
  · intro d t v ht
    refine ⟨?_, odLookup_odInsert_self d t v⟩
    unfold add_point
    rw [odKeys_odInsert, if_pos ht]
  · intro rows i
    exact ⟨nodup_odKeys_extract rows i, odKeys_extract_column_data rows i⟩

theorem timeseries_no_duplicate_keys_witness :
    odKeys (add_point [(['a'], some Val.nan)] ['a'] none) =
        odKeys [(['a'], some Val.nan)] ∧
      odLookup (add_point [(['a'], some Val.nan)] ['a'] none) ['a'] = some none :=
  timeseries_no_duplicate_keys.1 [(['a'], some Val.nan)] ['a'] none (by decide)

/-- C10: the key set of `extract_multiple_columns`' result is exactly the
requested indices with duplicates collapsed to their first occurrence, and
every requested column's series has the same timestamp key sequence (each
row with a timestamp contributes a point to every requested column), hence
the same length. -/
theorem extract_multiple_columns_key_invariants
    (rows : List (List (List Char))) (idxs : List Nat) :
    odKeys (extract_multiple_columns rows idxs) = firstDedup idxs ∧
    (∀ i ∈ idxs,
        odKeys (tsOf (extract_multiple_columns rows idxs) i) =
          firstDedup (rows.filterMap findTimestamp)) ∧
    (∀ i ∈ idxs, ∀ j ∈ idxs,
        (tsOf (extract_multiple_columns rows idxs) i).length =
          (tsOf (extract_multiple_columns rows idxs) j).length) := by
  have hkeys : ∀ i ∈ idxs,
      odKeys (tsOf (extract_multiple_columns rows idxs) i) =
        firstDedup (rows.filterMap findTimestamp) := by
    intro i hi
    unfold tsOf
    rw [emc_lookup rows idxs i hi, Option.getD_some]
    exact odKeys_extract_column_data rows i
  refine ⟨odKeys_emc rows idxs, hkeys, ?_⟩
  intro i hi j hj
  have hlen : ∀ d : TimeSeriesData, d.length = (odKeys d).length := by
    intro d
    unfold odKeys
    rw [List.length_map]
  rw [hlen, hlen, hkeys i hi, hkeys j hj]

theorem extract_multiple_columns_key_invariants_witness :
    odKeys
        (tsOf
          (extract_multiple_columns
            [[String.toList "\"01/15/2024 09:30:00\"", String.toList "1.5"]]
            [2, 1, 2])
          1) =
      firstDedup
        ([[String.toList "\"01/15/2024 09:30:00\"", String.toList "1.5"]].filterMap
          findTimestamp) :=
  (extract_multiple_columns_key_invariants
      [[String.toList "\"01/15/2024 09:30:00\"", String.toList "1.5"]]
      [2, 1, 2]).2.1 1 (by decide)

/-! ## Header-parsing lemmas -/

theorem splitChar_ne_nil (sep : Char) (l : List Char) : splitChar sep l ≠ [] := by
  cases l with
  | nil => simp [splitChar]
  | cons c r =>
    unfold splitChar
    by_cases h : c = sep
    · simp [h]
    · rw [if_neg h]
      cases h2 : splitChar sep r <;> simp

theorem joinSep_splitChar (sep : Char) (l : List Char) :
    joinSep sep (splitChar sep l) = l := by
  induction l with
  | nil => rfl
  | cons c r ih =>
    unfold splitChar
    by_cases hc : c = sep
    · rw [if_pos hc]
      cases h2 : splitChar sep r with
      | nil => exact absurd h2 (splitChar_ne_nil sep r)
      | cons y t =>
        rw [h2] at ih
        rw [joinSep, List.nil_append, ih, hc]
    · rw [if_neg hc]
      cases h2 : splitChar sep r with
      | nil => exact absurd h2 (splitChar_ne_nil sep r)
      | cons y t =>
        rw [h2] at ih
        cases t with
        | nil => rw [joinSep, ← ih, joinSep]
        | cons z t2 => rw [joinSep, ← ih, joinSep, List.cons_append]

theorem splitChar_bslash_bslash (u : List Char) :
    splitChar '\\' ('\\' :: '\\' :: u) = [] :: [] :: splitChar '\\' u := by
  rw [splitChar, if_pos rfl, splitChar, if_pos rfl]

theorem bb_prefix_shape (col : List Char) :
    (String.toList "\\\\").isPrefixOf col = true ↔ ∃ u, col = '\\' :: '\\' :: u := by
  cases col with
  | nil => simp [List.isPrefixOf]
  | cons a l2 =>
    cases l2 with
    | nil => simp [List.isPrefixOf]
    | cons b u =>
      constructor
      · intro h
        simp [List.isPrefixOf] at h
        exact ⟨u, by rw [← h.1, ← h.2]⟩
      · rintro ⟨u2, hu⟩
        cases hu
        simp [List.isPrefixOf]

theorem parseHeaderCell_of_pdh {i : Nat} {cell : List Char}
    (h : isPDHCell (stripQuotes cell) = true) : parseHeaderCell i cell = none := by
  unfold parseHeaderCell
  simp [h]

theorem parseHeaderCell_eq_none_iff (i : Nat) (cell : List Char) :
    parseHeaderCell i cell = none ↔ isPDHCell (stripQuotes cell) = true := by
  constructor
  · intro h
    by_contra hn
    have hn2 : isPDHCell (stripQuotes cell) = false := by
      cases h3 : isPDHCell (stripQuotes cell)
      · rfl
      · exact absurd h3 hn
    simp only [parseHeaderCell] at h
    rw [if_neg (by rw [hn2]; exact Bool.false_ne_true)] at h
    split at h
    · split at h <;> cases h
    · cases h
  · exact parseHeaderCell_of_pdh

theorem parseHeaderCell_index {i : Nat} {cell : List Char} {m : ColumnMetadata}
    (h : parseHeaderCell i cell = some m) : m.index = i := by
  simp only [parseHeaderCell] at h
  split at h
  · cases h
  · split at h
    · split at h
      · cases h; rfl
      · cases h; rfl
    · cases h; rfl

/-! ## Claim C3: header-cell parsing -/

/-- C3 (counterexample): the claim's description of `parse_csv_header`'s
per-cell transformation (strip at most a single pair of quotes; host is the
third backslash segment unconditionally) disagrees with the code at
concrete cells: for `\\hostonly` the code leaves host empty while the claim
takes `hostonly`, and for a doubly-quoted cell the code strips both quote
pairs while the claim strips at most one. -/
theorem parse_header_cell_claim_counterexample :
    (parseHeaderCell 0 (String.toList "\\\\hostonly")).map ColumnMetadata.host ≠
        some (parseHeaderCellClaimed 0 (String.toList "\\\\hostonly")).host ∧
      (parseHeaderCell 0
            (String.toList "\"\"\\\\h\\c\\k\"\"")).map ColumnMetadata.original ≠
        some (parseHeaderCellClaimed 0 (String.toList "\"\"\\\\h\\c\\k\"\"")).original := by
  exact ⟨by decide, by decide⟩

/-- C3 (amended): each header cell is stripped of all enclosing double
quotes; for a non-marker cell beginning with a double backslash, the cell
splits on backslash discarding the two leading empty segments, and when at
least two segments remain the first is host, the second category, and the
remaining segments rejoined with backslash form counter (so host, category
and counter concatenate back to the cell text); with fewer than two
remaining segments host, category and counter are all empty (host is not
taken from the third segment); any other cell also gets three empty fields
with the stripped text kept as original. -/
theorem parse_header_cell_amended (i : Nat) (cell : List Char)
    (hnp : isPDHCell (stripQuotes cell) = false) :
    ∃ m : ColumnMetadata,
      parseHeaderCell i cell = some m ∧ m.index = i ∧ m.original = stripQuotes cell ∧
      (∀ u, stripQuotes cell = '\\' :: '\\' :: u →
        (∀ p0 p1 rest, splitChar '\\' u = p0 :: p1 :: rest →
            m.host = p0 ∧ m.category = p1 ∧ m.counter = joinSep '\\' rest ∧
            stripQuotes cell =
              '\\' :: '\\' :: joinSep '\\' (m.host :: m.category :: rest)) ∧
        ((splitChar '\\' u).length < 2 →
            m.host = [] ∧ m.category = [] ∧ m.counter = [])) ∧
      ((∀ u, stripQuotes cell ≠ '\\' :: '\\' :: u) →
        m.host = [] ∧ m.category = [] ∧ m.counter = []) := by
  have hnp2 : ¬(isPDHCell (stripQuotes cell) = true) := by
    rw [hnp]; exact Bool.false_ne_true
  by_cases hbb : (String.toList "\\\\").isPrefixOf (stripQuotes cell) = true
  · obtain ⟨u, hu⟩ := (bb_prefix_shape _).mp hbb
    cases hs : splitChar '\\' u with
    | nil => exact absurd hs (splitChar_ne_nil _ _)
    | cons p0 t =>
      cases t with
      | nil =>
        refine ⟨⟨i, [], [], [], stripQuotes cell⟩, ?_, rfl, rfl, ?_, ?_⟩
        · simp only [parseHeaderCell]
          rw [if_neg hnp2, if_pos hbb, hu, splitChar_bslash_bslash, hs]
          simp
        · intro u2 hu2
          have hueq : u2 = u := by
            rw [hu] at hu2
            injection hu2 with e1 e2
            injection e2 with e3 e4
            exact e4.symm
          subst hueq
          constructor
          · intro p0' p1' rest' heq
            rw [hs] at heq
            have hlen := congrArg List.length heq
            simp at hlen
          · intro _; exact ⟨rfl, rfl, rfl⟩
        · intro hno; exact absurd hu (hno u)
      | cons p1 rest =>
        refine ⟨⟨i, p0, p1, joinSep '\\' rest, stripQuotes cell⟩, ?_, rfl, rfl, ?_, ?_⟩
        · simp only [parseHeaderCell]
          rw [if_neg hnp2, if_pos hbb, hu, splitChar_bslash_bslash, hs]
          cases rest with
          | nil => simp [joinSep]
          | cons z t2 => simp
        · intro u2 hu2
          have hueq : u2 = u := by
            rw [hu] at hu2
            injection hu2 with e1 e2
            injection e2 with e3 e4
            exact e4.symm
          subst hueq
          constructor
          · intro p0' p1' rest' heq
            rw [hs] at heq
            injection heq with e1 e2
            injection e2 with e3 e4
            subst e1; subst e3; subst e4
            refine ⟨rfl, rfl, rfl, ?_⟩
            rw [hu, ← hs, joinSep_splitChar]
          · intro hlen
            rw [hs] at hlen
            simp at hlen
            omega
        · intro hno; exact absurd hu (hno u)
  · refine ⟨⟨i, [], [], [], stripQuotes cell⟩, ?_, rfl, rfl, ?_, ?_⟩
    · simp only [parseHeaderCell]
      rw [if_neg hnp2, if_neg hbb]
    · intro u hu
      exact absurd ((bb_prefix_shape _).mpr ⟨u, hu⟩) hbb
    · intro _; exact ⟨rfl, rfl, rfl⟩

theorem parse_header_cell_amended_witness :
    ∃ m : ColumnMetadata,
      parseHeaderCell 0 (String.toList "\\\\esx01\\Memory\\Free MBytes") = some m ∧
      m.index = 0 ∧
      m.original = stripQuotes (String.toList "\\\\esx01\\Memory\\Free MBytes") ∧
      (∀ u, stripQuotes (String.toList "\\\\esx01\\Memory\\Free MBytes") =
          '\\' :: '\\' :: u →
        (∀ p0 p1 rest, splitChar '\\' u = p0 :: p1 :: rest →
            m.host = p0 ∧ m.category = p1 ∧ m.counter = joinSep '\\' rest ∧
            stripQuotes (String.toList "\\\\esx01\\Memory\\Free MBytes") =
              '\\' :: '\\' :: joinSep '\\' (m.host :: m.category :: rest)) ∧
        ((splitChar '\\' u).length < 2 →
            m.host = [] ∧ m.category = [] ∧ m.counter = [])) ∧
      ((∀ u, stripQuotes (String.toList "\\\\esx01\\Memory\\Free MBytes") ≠
          '\\' :: '\\' :: u) →
        m.host = [] ∧ m.category = [] ∧ m.counter = []) :=
  parse_header_cell_amended 0 (String.toList "\\\\esx01\\Memory\\Free MBytes")
    (by decide)

/-! ## Claim C4: header length and index preservation -/

theorem parseHeaderCell_isSome_of_clean {i : Nat} {cell : List Char}
    (h : isPDHCell (stripQuotes cell) = false) :
    ∃ m, parseHeaderCell i cell = some m := by
  cases hm : parseHeaderCell i cell with
  | some m => exact ⟨m, rfl⟩
  | none =>
    rw [parseHeaderCell_eq_none_iff] at hm
    rw [h] at hm
    cases hm

theorem parseHeaderFrom_length_clean (cells : List (List Char))
    (hclean : ∀ cell ∈ cells, isPDHCell (stripQuotes cell) = false) :
    ∀ i, (parseHeaderFrom i cells).length = cells.length := by
  induction cells with
  | nil => intro i; rfl
  | cons cell rest ih =>
    intro i
    obtain ⟨m, hm⟩ :=
      parseHeaderCell_isSome_of_clean (i := i) (hclean cell (List.mem_cons_self _ _))
    rw [parseHeaderFrom, hm, List.length_cons, List.length_cons,
      ih (fun c hc => hclean c (List.mem_cons_of_mem _ hc))]

theorem parseHeaderFrom_mem_index (cells : List (List Char)) :
    ∀ (i : Nat) (m : ColumnMetadata), m ∈ parseHeaderFrom i cells →
      ∃ j cell, cells[j]? = some cell ∧ m.index = i + j ∧
        parseHeaderCell m.index cell = some m := by
  induction cells with
  | nil => intro i m hm; cases hm
  | cons cell rest ih =>
    intro i m hm
    rw [parseHeaderFrom] at hm
    cases hc : parseHeaderCell i cell with
    | some cm =>
      rw [hc] at hm
      rcases List.mem_cons.mp hm with hm | hm
      · subst hm
        refine ⟨0, cell, by simp, ?_, ?_⟩
        · rw [parseHeaderCell_index hc]; omega
        · rw [parseHeaderCell_index hc]; exact hc
      · obtain ⟨j, cell2, hj, hidx, hp⟩ := ih (i + 1) m hm
        exact ⟨j + 1, cell2, by simpa using hj, by omega, hp⟩
    | none =>
      rw [hc] at hm
      obtain ⟨j, cell2, hj, hidx, hp⟩ := ih (i + 1) m hm
      exact ⟨j + 1, cell2, by simpa using hj, by omega, hp⟩

/-- C4: for a valid header row (at most the leading cell is a `(PDH-CSV...`
marker), `parse_csv_header` emits one `ColumnMetadata` per cell, minus one
exactly when the leading marker cell is present, and every emitted entry's
`index` is the zero-based position of its cell in the raw header row (the
numbering is not shifted by the skipped marker cell). -/
theorem parse_csv_header_count_and_indices (header : List (List Char))
    (hvalid : ∀ cell ∈ header.drop 1, isPDHCell (stripQuotes cell) = false) :
    (parse_csv_header header).length =
        header.length - (if headIsPDH header then 1 else 0) ∧
      ∀ m ∈ parse_csv_header header,
        ∃ cell, header[m.index]? = some cell ∧
          parseHeaderCell m.index cell = some m := by
  constructor
  · cases header with
    | nil => rfl
    | cons c rest =>
      have hrest : ∀ cell ∈ rest, isPDHCell (stripQuotes cell) = false := by
        intro cell hc
        exact hvalid cell (by simpa using hc)
      unfold parse_csv_header
      rw [parseHeaderFrom]
      cases hc : parseHeaderCell 0 c with
      | none =>
        have hpdh : isPDHCell (stripQuotes c) = true :=
          (parseHeaderCell_eq_none_iff 0 c).mp hc
        have : headIsPDH (c :: rest) = true := by
          unfold headIsPDH
          simpa using hpdh
        rw [this, if_pos rfl, parseHeaderFrom_length_clean rest hrest 1]
        simp
      | some cm =>
        have hpdh : isPDHCell (stripQuotes c) = false := by
          cases hx : isPDHCell (stripQuotes c)
          · rfl
          · rw [parseHeaderCell_of_pdh hx] at hc; cases hc
        have : headIsPDH (c :: rest) = false := by
          unfold headIsPDH
          simpa using hpdh
        rw [this, if_neg (by simp), List.length_cons,
          parseHeaderFrom_length_clean rest hrest 1]
        simp
  · intro m hm
    obtain ⟨j, cell, hj, hidx, hp⟩ := parseHeaderFrom_mem_index header 0 m hm
    refine ⟨cell, ?_, hp⟩
    rw [hidx, Nat.zero_add]
    exact hj

theorem parse_csv_header_count_and_indices_witness :
    (parse_csv_header
          [String.toList "(PDH-CSV 4.0) (UTC)(0)",
           String.toList "\\\\esx01\\Memory\\Free MBytes"]).length =
        [String.toList "(PDH-CSV 4.0) (UTC)(0)",
         String.toList "\\\\esx01\\Memory\\Free MBytes"].length -
          (if headIsPDH
              [String.toList "(PDH-CSV 4.0) (UTC)(0)",
               String.toList "\\\\esx01\\Memory\\Free MBytes"]
            then 1 else 0) :=
  (parse_csv_header_count_and_indices
      [String.toList "(PDH-CSV 4.0) (UTC)(0)",
       String.toList "\\\\esx01\\Memory\\Free MBytes"]
      (by decide)).1

/-! ## Claim C6: friendly names -/

theorem isPrefixOf_iff_append (p : List Char) :
    ∀ l : List Char, p.isPrefixOf l = true ↔ ∃ t, l = p ++ t := by
  intro l
  constructor
  · intro h
    simp at h
    obtain ⟨t, ht⟩ := h
    exact ⟨t, ht.symm⟩
  · rintro ⟨t, rfl⟩
    simp

theorem containsSub_of_prefix {p l : List Char} (h : p.isPrefixOf l = true) :
    containsSub p l = true := by
  cases l with
  | nil =>
    obtain ⟨t, ht⟩ := (isPrefixOf_iff_append p []).mp h
    have : p = [] := by
      cases p
      · rfl
      · cases ht
    rw [this]
    rfl
  | cons c r =>
    unfold containsSub
    rw [h]
    rfl

theorem containsSub_tail {p r : List Char} (c : Char)
    (h : containsSub p r = true) : containsSub p (c :: r) = true := by
  unfold containsSub
  rw [h, Bool.or_true]

theorem vdTokenAt_startsVD {s tok : List Char} (h : vdTokenAt s = some tok) :
    (String.toList "Virtual Disk(").isPrefixOf s = true := by
  unfold vdTokenAt at h
  split at h
  · assumption
  · cases h

theorem prefix_vd_of_vdparen {s : List Char}
    (h : (String.toList "Virtual Disk(").isPrefixOf s = true) :
    (String.toList "Virtual Disk").isPrefixOf s = true := by
  obtain ⟨t, ht⟩ := (isPrefixOf_iff_append _ s).mp h
  refine (isPrefixOf_iff_append _ s).mpr ⟨'(' :: t, ?_⟩
  rw [ht]
  rfl

theorem vdSearch_contains {s tok : List Char} (h : vdSearch s = some tok) :
    containsSub (String.toList "Virtual Disk") s = true := by
  induction s with
  | nil => cases h
  | cons c r ih =>
    rw [vdSearch] at h
    cases h2 : vdTokenAt (c :: r) with
    | some t =>
      exact containsSub_of_prefix (prefix_vd_of_vdparen (vdTokenAt_startsVD h2))
    | none =>
      rw [h2] at h
      exact containsSub_tail c (ih h)

/-- C6: `get_friendly_name` returns `"<token> - <counter>"` when the
category contains `Virtual Disk` immediately followed by a parenthesised
(nonempty) token, else `"<category> - <counter>"` when the counter is
nonempty, else the original header text unchanged; and Scenario A: the
header cell `\\esx01.corp\Virtual Disk(VM1:scsi0:0)\Average MilliSec/Write`
parses to host `esx01.corp`, category `Virtual Disk(VM1:scsi0:0)`, counter
`Average MilliSec/Write`, with friendly name
`VM1:scsi0:0 - Average MilliSec/Write`. -/
theorem get_friendly_name_spec (c : ColumnMetadata) :
    (∀ tok, vdSearch c.category = some tok →
        get_friendly_name c = tok ++ String.toList " - " ++ c.counter) ∧
    (vdSearch c.category = none → c.counter ≠ [] →
        get_friendly_name c = c.category ++ String.toList " - " ++ c.counter) ∧
    (vdSearch c.category = none → c.counter = [] →
        get_friendly_name c = c.original) ∧
    parse_csv_header
        [String.toList
          "\\\\esx01.corp\\Virtual Disk(VM1:scsi0:0)\\Average MilliSec/Write"] =
      [⟨0, String.toList "esx01.corp", String.toList "Virtual Disk(VM1:scsi0:0)",
        String.toList "Average MilliSec/Write",
        String.toList
          "\\\\esx01.corp\\Virtual Disk(VM1:scsi0:0)\\Average MilliSec/Write"⟩] ∧
    get_friendly_name
        ⟨0, String.toList "esx01.corp", String.toList "Virtual Disk(VM1:scsi0:0)",
         String.toList "Average MilliSec/Write",
         String.toList
           "\\\\esx01.corp\\Virtual Disk(VM1:scsi0:0)\\Average MilliSec/Write"⟩ =
      String.toList "VM1:scsi0:0 - Average MilliSec/Write" := by
  refine ⟨?_, ?_, ?_, by decide, by decide⟩
  · intro tok h
    unfold get_friendly_name
    rw [if_pos (vdSearch_contains h), h]
  · intro h hc
    have hce : c.counter.isEmpty = false := by
      cases hcc : c.counter with
      | nil => exact absurd hcc hc
      | cons x r => rfl
    unfold get_friendly_name
    by_cases hcont : containsSub (String.toList "Virtual Disk") c.category = true
    · rw [if_pos hcont, h, hce]
      simp
    · rw [if_neg hcont, hce]
      simp
  · intro h hc
    have hce : c.counter.isEmpty = true := by rw [hc]; rfl
    unfold get_friendly_name
    by_cases hcont : containsSub (String.toList "Virtual Disk") c.category = true
    · rw [if_pos hcont, h, hce]
      simp
    · rw [if_neg hcont, hce]
      simp

theorem get_friendly_name_spec_witness :
    get_friendly_name
        ⟨0, String.toList "esx01.corp", String.toList "Virtual Disk(VM1:scsi0:0)",
         String.toList "Average MilliSec/Write",
         String.toList
           "\\\\esx01.corp\\Virtual Disk(VM1:scsi0:0)\\Average MilliSec/Write"⟩ =
      String.toList "VM1:scsi0:0" ++ String.toList " - " ++
        String.toList "Average MilliSec/Write" :=
  (get_friendly_name_spec
      ⟨0, String.toList "esx01.corp", String.toList "Virtual Disk(VM1:scsi0:0)",
       String.toList "Average MilliSec/Write",
       String.toList
         "\\\\esx01.corp\\Virtual Disk(VM1:scsi0:0)\\Average MilliSec/Write"⟩).1
    (String.toList "VM1:scsi0:0") (by decide)

/-! ## Claim C7: summarisation tables -/

theorem count_category_table (s : List Char) (hs : s ≠ []) :
    ∀ l : List ColumnMetadata,
      ((l.filter fun c => ¬c.category.isEmpty).map fun c => c.category).count s =
        (l.filter fun c => decide (c.category = s)).length := by
  intro l
  induction l with
  | nil => rfl
  | cons c r ih =>
    by_cases hc0 : c.category = []
    · have hcat : ¬c.category = s := by rw [hc0]; exact fun e => hs e.symm
      simp [List.filter_cons, List.isEmpty_iff, List.count_cons, hc0, hcat, hs] at ih ⊢
      omega
    · by_cases hcat : c.category = s
      · simp [List.filter_cons, List.isEmpty_iff, List.count_cons, hc0, hcat, hs] at ih ⊢
        omega
      · simp [List.filter_cons, List.isEmpty_iff, List.count_cons, hc0, hcat, hs] at ih ⊢
        omega

theorem count_counter_table (s : List Char) (hs : s ≠ []) :
    ∀ l : List ColumnMetadata,
      ((l.filter fun c => ¬c.counter.isEmpty).map fun c => c.counter).count s =
        (l.filter fun c => decide (c.counter = s)).length := by
  intro l
  induction l with
  | nil => rfl
  | cons c r ih =>
    by_cases hc0 : c.counter = []
    · have hcnt : ¬c.counter = s := by rw [hc0]; exact fun e => hs e.symm
      simp [List.filter_cons, List.isEmpty_iff, List.count_cons, hc0, hcnt, hs] at ih ⊢
      omega
    · by_cases hcnt : c.counter = s
      · simp [List.filter_cons, List.isEmpty_iff, List.count_cons, hc0, hcnt, hs] at ih ⊢
        omega
      · simp [List.filter_cons, List.isEmpty_iff, List.count_cons, hc0, hcnt, hs] at ih ⊢
        omega

theorem count_combined_table (s t : List Char) (hs : s ≠ []) (ht : t ≠ []) :
    ∀ l : List ColumnMetadata,
      ((l.filter fun c => ¬c.category.isEmpty ∧ ¬c.counter.isEmpty).map
            fun c => (c.category, c.counter)).count (s, t) =
        (l.filter fun c => decide (c.category = s) && decide (c.counter = t)).length := by
  intro l
  induction l with
  | nil => rfl
  | cons c r ih =>
    by_cases hc0 : c.category = []
    · have hcat : ¬c.category = s := by rw [hc0]; exact fun e => hs e.symm
      simp [List.filter_cons, List.isEmpty_iff, List.count_cons, hc0, hcat, hs, ht]
        at ih ⊢
      omega
    · by_cases hn0 : c.counter = []
      · have hcnt : ¬c.counter = t := by rw [hn0]; exact fun e => ht e.symm
        simp [List.filter_cons, List.isEmpty_iff, List.count_cons, hc0, hn0, hcnt,
          hs, ht] at ih ⊢
        omega
      · by_cases hcat : c.category = s
        · by_cases hcnt : c.counter = t
          · simp [List.filter_cons, List.isEmpty_iff, List.count_cons, hc0, hn0,
              hcat, hcnt, hs, ht] at ih ⊢
            omega
          · simp [List.filter_cons, List.isEmpty_iff, List.count_cons, hc0, hn0,
              hcat, hcnt, hs, ht] at ih ⊢
            omega
        · simp [List.filter_cons, List.isEmpty_iff, List.count_cons, hc0, hn0,
            hcat, hs, ht] at ih ⊢
          omega

theorem filter_filterColumns (catP cntP : Option (List Char → Bool))
    (cols : List ColumnMetadata) (p : ColumnMetadata → Bool) :
    (filterColumns catP cntP cols).filter p =
      cols.filter fun c => passesFilters catP cntP c && p c := by
  unfold filterColumns
  by_cases h : (catP.isSome || cntP.isSome) = true
  · rw [if_pos h, List.filter_filter]
    exact List.filter_congr fun c _ => by rw [Bool.and_comm]
  · rw [if_neg h]
    have hcat : catP = none := by
      cases catP with
      | none => rfl
      | some f => simp at h
    have hcnt : cntP = none := by
      cases cntP with
      | none => rfl
      | some f => simp at h
    subst hcat; subst hcnt
    refine (List.filter_congr fun c _ => ?_).symm
    simp [passesFilters]

/-- C7: each of `summarize_columns`' three frequency tables counts exactly
the columns that satisfy every supplied (category / counter) pattern and
whose relevant field is nonempty: the category table counts columns with
the given nonempty category, the counter table those with the given
nonempty counter, the combined table those matching a nonempty pair; empty
fields are never counted.  The regex match of a fixed compiled
case-insensitive pattern is modelled by an arbitrary Boolean matcher. -/
theorem summarize_columns_spec (cols : List ColumnMetadata)
    (catP cntP : Option (List Char → Bool)) :
    (∀ s : List Char, s ≠ [] →
        (summarize_columns cols catP cntP).1 s =
          (cols.filter fun c =>
            passesFilters catP cntP c && decide (c.category = s)).length) ∧
    (summarize_columns cols catP cntP).1 [] = 0 ∧
    (∀ s : List Char, s ≠ [] →
        (summarize_columns cols catP cntP).2.1 s =
          (cols.filter fun c =>
            passesFilters catP cntP c && decide (c.counter = s)).length) ∧
    (summarize_columns cols catP cntP).2.1 [] = 0 ∧
    (∀ s t : List Char, s ≠ [] → t ≠ [] →
        (summarize_columns cols catP cntP).2.2 (s, t) =
          (cols.filter fun c =>
            passesFilters catP cntP c &&
              (decide (c.category = s) && decide (c.counter = t))).length) ∧
    (∀ s t : List Char, s = [] ∨ t = [] →
        (summarize_columns cols catP cntP).2.2 (s, t) = 0) := by
  refine ⟨?_, ?_, ?_, ?_, ?_, ?_⟩
  · intro s hs
    simp only [summarize_columns]
    rw [count_category_table s hs, filter_filterColumns]
  · simp only [summarize_columns]
    rw [List.count_eq_zero]
    intro hmem
    obtain ⟨c, hc, hcat⟩ := List.mem_map.mp hmem
    have := (List.mem_filter.mp hc).2
    rw [hcat] at this
    simp at this
  · intro s hs
    simp only [summarize_columns]
    rw [count_counter_table s hs, filter_filterColumns]
  · simp only [summarize_columns]
    rw [List.count_eq_zero]
    intro hmem
    obtain ⟨c, hc, hcnt⟩ := List.mem_map.mp hmem
    have h2 := (List.mem_filter.mp hc).2
    rw [hcnt] at h2
    simp at h2
  · intro s t hs ht
    simp only [summarize_columns]
    rw [count_combined_table s t hs ht, filter_filterColumns]
  · intro s t hst
    simp only [summarize_columns]
    rw [List.count_eq_zero]
    intro hmem
    obtain ⟨c, hc, hpair⟩ := List.mem_map.mp hmem
    have h2 := (List.mem_filter.mp hc).2
    injection hpair with e1 e2
    rcases hst with hst | hst
    · rw [hst] at e1
      rw [e1] at h2
      simp at h2
    · rw [hst] at e2
      rw [e2] at h2
      simp at h2

theorem summarize_columns_spec_witness :
    (summarize_columns
          [⟨0, [], String.toList "Virtual Disk(a)", String.toList "c1", []⟩,
           ⟨1, [], String.toList "Physical Disk", String.toList "c1", []⟩,
           ⟨2, [], [], String.toList "c2", []⟩]
          (some (icontains (String.toList "virtual disk"))) none).1
        (String.toList "Virtual Disk(a)") =
      ([⟨0, [], String.toList "Virtual Disk(a)", String.toList "c1", []⟩,
        ⟨1, [], String.toList "Physical Disk", String.toList "c1", []⟩,
        ⟨2, [], [], String.toList "c2", []⟩].filter
          fun c : ColumnMetadata =>
            passesFilters (some (icontains (String.toList "virtual disk"))) none c &&
              decide (c.category = String.toList "Virtual Disk(a)")).length :=
  (summarize_columns_spec
      [⟨0, [], String.toList "Virtual Disk(a)", String.toList "c1", []⟩,
       ⟨1, [], String.toList "Physical Disk", String.toList "c1", []⟩,
       ⟨2, [], [], String.toList "c2", []⟩]
      (some (icontains (String.toList "virtual disk"))) none).1
    (String.toList "Virtual Disk(a)") (by decide)

/-! ## Claim C8: series-file loading -/

/-- C8: `load_data_file` skips (and counts) every line that fails the
`": "` split, timestamp parsing, or float parsing — never failing on such a
line — and fails with the empty-data error exactly when zero lines parse;
a file holding only `not a valid line` fails that way after one skipped
line. -/
theorem load_data_file_skips_and_empty :
    (∀ (lines : List (List Char)) (scale : Val),
        (loadScan scale lines).1 = lines.filterMap (parseLine scale) ∧
        (loadScan scale lines).2 =
          (lines.filter fun l => (parseLine scale l).isNone).length) ∧
    (∀ (line : List Char) (scale : Val),
        parseLine scale line = none ↔
          ∀ ts v, splitCS (pyStrip line) = [ts, v] →
            strptime ts = none ∨ pyFloat v = none) ∧
    (∀ (lines : List (List Char)) (scale : Val),
        (load_data_file lines scale = Except.error () ↔
          lines.filterMap (parseLine scale) = [])) ∧
    load_data_file [String.toList "not a valid line"] (Val.num 1) =
      Except.error () ∧
    (loadScan (Val.num 1) [String.toList "not a valid line"]).2 = 1 := by
  have hscan : ∀ (scale : Val) (lines : List (List Char)),
      (loadScan scale lines).1 = lines.filterMap (parseLine scale) ∧
      (loadScan scale lines).2 =
        (lines.filter fun l => (parseLine scale l).isNone).length := by
    intro scale lines
    induction lines with
    | nil => exact ⟨rfl, rfl⟩
    | cons line rest ih =>
      cases hp : parseLine scale line with
      | some p =>
        rw [loadScan, List.filterMap_cons, List.filter_cons, hp]
        simp [ih.1, ih.2]
      | none =>
        rw [loadScan, List.filterMap_cons, List.filter_cons, hp]
        simp [ih.1, ih.2]
  refine ⟨fun lines scale => hscan scale lines, ?_, ?_, by decide, by decide⟩
  · intro line scale
    unfold parseLine
    cases hsp : splitCS (pyStrip line) with
    | nil => simp
    | cons a l2 =>
      cases l2 with
      | nil => simp
      | cons b l3 =>
        cases l3 with
        | nil =>
          constructor
          · intro hnone ts v heq
            injection heq with e1 e2
            injection e2 with e3 e4
            subst e1; subst e3
            cases hst : strptime a with
            | none => exact Or.inl rfl
            | some tval =>
              cases hpf : pyFloat b with
              | none => exact Or.inr rfl
              | some x => simp [hst, hpf] at hnone
          · intro h
            rcases h a b rfl with h2 | h2
            · simp [h2]
            · cases hst : strptime a <;> simp [hst, h2]
        | cons d l4 => simp
  · intro lines scale
    unfold load_data_file
    rw [(hscan scale lines).1]
    by_cases he : lines.filterMap (parseLine scale) = []
    · rw [he]
      simp
    · have : (lines.filterMap (parseLine scale)).isEmpty = false := by
        cases hx : lines.filterMap (parseLine scale) with
        | nil => exact absurd hx he
        | cons p r => rfl
      rw [this]
      constructor
      · intro h; cases h
      · intro h; exact absurd h he

theorem load_data_file_skips_and_empty_witness :
    load_data_file [String.toList "x: y"] (Val.num 1) = Except.error () :=
  (load_data_file_skips_and_empty.2.2.1 [String.toList "x: y"] (Val.num 1)).mpr
    (by decide)

/-! ## Decimal printing lemmas (towards the round-trip claim) -/

theorem digitChar_mem (n : Nat) : digitChar n ∈ digitChars := by
  unfold digitChar
  split <;> decide

theorem charVal_digitChar : ∀ n < 10, charVal (digitChar n) = n := by decide

theorem digitChars_classes :
    ∀ c ∈ digitChars, c.isDigit = true ∧ asciiLower c = c ∧ c ≠ ':' ∧
      c.isWhitespace = false ∧ c ≠ '-' ∧ c ≠ '+' ∧ c ≠ '.' ∧ c ≠ 'n' ∧ c ≠ 'i' := by
  decide

theorem digitsToNat_append_single (l : List Char) (c : Char) :
    digitsToNat (l ++ [c]) = 10 * digitsToNat l + charVal c := by
  unfold digitsToNat
  rw [List.foldl_append]
  simp [Nat.mul_comm]

theorem natCharsAux_spec :
    ∀ fuel n, n < fuel →
      digitsToNat (natCharsAux fuel n) = n ∧
      (∀ c ∈ natCharsAux fuel n, c ∈ digitChars) ∧
      natCharsAux fuel n ≠ [] := by
  intro fuel
  induction fuel with
  | zero => intro n hn; omega
  | succ f ih =>
    intro n hn
    by_cases h10 : n < 10
    · rw [natCharsAux, if_pos h10]
      refine ⟨?_, ?_, by simp⟩
      · show digitsToNat [digitChar n] = n
        unfold digitsToNat
        simp [charVal_digitChar n h10]
      · intro c hc
        rw [List.mem_singleton] at hc
        rw [hc]
        exact digitChar_mem n
    · rw [natCharsAux, if_neg h10]
      have hdiv : n / 10 < f := by
        have h1 : n / 10 < n := Nat.div_lt_self (by omega) (by omega)
        omega
      obtain ⟨hval, hmem, hne⟩ := ih (n / 10) hdiv
      refine ⟨?_, ?_, by simp⟩
      · rw [digitsToNat_append_single, hval,
          charVal_digitChar (n % 10) (Nat.mod_lt n (by omega))]
        omega
      · intro c hc
        rcases List.mem_append.mp hc with hc | hc
        · exact hmem c hc
        · rw [List.mem_singleton] at hc
          rw [hc]
          exact digitChar_mem (n % 10)

theorem natToChars_val (n : Nat) : digitsToNat (natToChars n) = n :=
  (natCharsAux_spec (n + 1) n (Nat.lt_succ_self n)).1

theorem natToChars_mem (n : Nat) : ∀ c ∈ natToChars n, c ∈ digitChars :=
  (natCharsAux_spec (n + 1) n (Nat.lt_succ_self n)).2.1

theorem natToChars_ne_nil (n : Nat) : natToChars n ≠ [] :=
  (natCharsAux_spec (n + 1) n (Nat.lt_succ_self n)).2.2

theorem natCharsAux_length :
    ∀ fuel n k, n < fuel → 1 ≤ k → n < 10 ^ k →
      (natCharsAux fuel n).length ≤ k := by
  intro fuel
  induction fuel with
  | zero => intro n k hn; omega
  | succ f ih =>
    intro n k hn hk hpow
    by_cases h10 : n < 10
    · rw [natCharsAux, if_pos h10]
      simpa using hk
    · rw [natCharsAux, if_neg h10]
      have hk2 : 2 ≤ k := by
        by_contra hlt
        have : k = 1 := by omega
        rw [this] at hpow
        simp at hpow
        omega
      have hdiv : n / 10 < f := by
        have h1 : n / 10 < n := Nat.div_lt_self (by omega) (by omega)
        omega
      have hdivpow : n / 10 < 10 ^ (k - 1) := by
        rw [Nat.div_lt_iff_lt_mul (by omega : 0 < 10)]
        have : 10 ^ (k - 1) * 10 = 10 ^ k := by
          rw [Nat.mul_comm, ← Nat.pow_succ']
          · congr 1
            omega
        omega
      have := ih (n / 10) (k - 1) hdiv (by omega) hdivpow
      rw [List.length_append]
      simp
      omega

theorem natToChars_length (n k : Nat) (hk : 1 ≤ k) (hpow : n < 10 ^ k) :
    (natToChars n).length ≤ k :=
  natCharsAux_length (n + 1) n k (Nat.lt_succ_self n) hk hpow

theorem digitsToNat_replicate_zero (m : Nat) (l : List Char) :
    digitsToNat (List.replicate m '0' ++ l) = digitsToNat l := by
  induction m with
  | zero => rfl
  | succ m2 ih =>
    rw [List.replicate_succ, List.cons_append]
    unfold digitsToNat at ih ⊢
    simp only [List.foldl_cons]
    have : charVal '0' = 0 := rfl
    rw [this]
    exact ih

theorem padDigits_val (k : Nat) (l : List Char) :
    digitsToNat (padDigits k l) = digitsToNat l :=
  digitsToNat_replicate_zero (k - l.length) l

theorem padDigits_length (k : Nat) (l : List Char) (h : l.length ≤ k) :
    (padDigits k l).length = k := by
  unfold padDigits
  rw [List.length_append, List.length_replicate]
  omega

theorem padDigits_mem (k : Nat) (l : List Char) (h : ∀ c ∈ l, c ∈ digitChars) :
    ∀ c ∈ padDigits k l, c ∈ digitChars := by
  intro c hc
  rcases List.mem_append.mp hc with hc | hc
  · rw [List.eq_of_mem_replicate hc]
    decide
  · exact h c hc

/-! ## Scanning helpers -/

theorem takeWhile_append_stop (p : Char → Bool) :
    ∀ (a : List Char) (x : Char) (b : List Char),
      (∀ c ∈ a, p c = true) → p x = false →
      (a ++ x :: b).takeWhile p = a ∧ (a ++ x :: b).dropWhile p = x :: b := by
  intro a
  induction a with
  | nil =>
    intro x b _ hx
    constructor
    · rw [List.nil_append, List.takeWhile_cons, hx]
      simp
    · rw [List.nil_append, List.dropWhile_cons, hx]
      simp
  | cons c a2 ih =>
    intro x b ha hx
    have hc : p c = true := ha c (List.mem_cons_self _ _)
    have ha2 : ∀ c2 ∈ a2, p c2 = true := fun c2 h2 => ha c2 (List.mem_cons_of_mem _ h2)
    obtain ⟨ht, hd⟩ := ih x b ha2 hx
    constructor
    · rw [List.cons_append, List.takeWhile_cons, hc]
      simp [ht]
    · rw [List.cons_append, List.dropWhile_cons, hc]
      simp [hd]

theorem takeWhile_all (p : Char → Bool) :
    ∀ a : List Char, (∀ c ∈ a, p c = true) →
      a.takeWhile p = a ∧ a.dropWhile p = [] := by
  intro a
  induction a with
  | nil => intro _; exact ⟨rfl, rfl⟩
  | cons c a2 ih =>
    intro ha
    have hc : p c = true := ha c (List.mem_cons_self _ _)
    obtain ⟨ht, hd⟩ := ih fun c2 h2 => ha c2 (List.mem_cons_of_mem _ h2)
    constructor
    · rw [List.takeWhile_cons, hc]
      simp [ht]
    · rw [List.dropWhile_cons, hc]
      simp [hd]

theorem getLast_mem_of_ne_nil :
    ∀ l : List Char, l ≠ [] → ∃ c, l.getLast? = some c ∧ c ∈ l := by
  intro l
  induction l with
  | nil => intro h; exact absurd rfl h
  | cons x r ih =>
    intro _
    cases r with
    | nil => exact ⟨x, rfl, List.mem_cons_self _ _⟩
    | cons y r2 =>
      obtain ⟨c, hc, hmem⟩ := ih (by simp)
      exact ⟨c, by rw [List.getLast?_cons_cons]; exact hc,
        List.mem_cons_of_mem _ hmem⟩

theorem stripSet_eq_self (p : Char → Bool) (l : List Char)
    (h1 : ∀ c, l.head? = some c → p c = false)
    (h2 : ∀ c, l.getLast? = some c → p c = false) : stripSet p l = l := by
  unfold stripSet
  have hd : l.dropWhile p = l := by
    cases l with
    | nil => rfl
    | cons c r =>
      rw [List.dropWhile_cons, h1 c rfl]
      simp
  rw [hd]
  have hd2 : l.reverse.dropWhile p = l.reverse := by
    cases hr : l.reverse with
    | nil => rfl
    | cons c r2 =>
      have hlast : l.getLast? = some c := by
        rw [← List.head?_reverse, hr]
        rfl
      rw [List.dropWhile_cons, h2 c hlast]
      simp
  rw [hd2, List.reverse_reverse]

theorem splitSign_no_sign (c : Char) (r : List Char) (h1 : c ≠ '-') (h2 : c ≠ '+') :
    splitSign (c :: r) = (false, c :: r) := by
  unfold splitSign
  split
  · next heq => injection heq with e1 e2; exact absurd e1 h1
  · next heq => injection heq with e1 e2; exact absurd e1 h2
  · rfl

/-! ## Parsing back a printed decimal -/

theorem head?_append_left (a b : List Char) (ha : a ≠ []) :
    (a ++ b).head? = a.head? := by
  cases a with
  | nil => exact absurd rfl ha
  | cons c r => rfl

theorem getLast?_append_right (a b : List Char) (hb : b ≠ []) :
    (a ++ b).getLast? = b.getLast? := by
  induction a with
  | nil => rfl
  | cons c a2 ih =>
    cases hx : a2 ++ b with
    | nil =>
      rcases List.append_eq_nil.mp hx with ⟨_, h2⟩
      exact absurd h2 hb
    | cons y t =>
      rw [List.cons_append, hx, List.getLast?_cons_cons, ← hx, ih]

theorem getLast?_cons_right (c : Char) (l : List Char) (h : l ≠ []) :
    (c :: l).getLast? = l.getLast? :=
  getLast?_append_right [c] l h

theorem padDigits_ne_nil (k : Nat) (l : List Char) (h : l ≠ []) :
    padDigits k l ≠ [] := by
  unfold padDigits
  intro hx
  rcases List.append_eq_nil.mp hx with ⟨_, h2⟩
  exact absurd h2 h

theorem pyFloatCore_decimal (I F k : Nat) :
    pyFloatCore (natToChars I ++ '.' :: padDigits k (natToChars F)) =
      some ((I : ℚ) +
        (F : ℚ) / 10 ^ (padDigits k (natToChars F)).length) := by
  have hipd : ∀ c ∈ natToChars I, Char.isDigit c = true := fun c hc =>
    (digitChars_classes c (natToChars_mem I c hc)).1
  have hpadmem : ∀ c ∈ padDigits k (natToChars F), c ∈ digitChars :=
    padDigits_mem k (natToChars F) (natToChars_mem F)
  have hpadd : ∀ c ∈ padDigits k (natToChars F), Char.isDigit c = true := fun c hc =>
    (digitChars_classes c (hpadmem c hc)).1
  have hdot : Char.isDigit '.' = false := by decide
  obtain ⟨ht, hd⟩ :=
    takeWhile_append_stop Char.isDigit (natToChars I) '.'
      (padDigits k (natToChars F)) hipd hdot
  obtain ⟨ht2, hd2⟩ := takeWhile_all Char.isDigit (padDigits k (natToChars F)) hpadd
  have hne : (natToChars I).isEmpty = false := by
    cases hx : natToChars I with
    | nil => exact absurd hx (natToChars_ne_nil I)
    | cons c r => rfl
  simp only [pyFloatCore]
  rw [ht, hd]
  split
  · next heq =>
    injection heq with _ e2
    subst e2
    rw [ht2, hd2]
    rw [if_neg (by rw [hne]; simp)]
    simp only [parseExpSuffix, Option.map_some']
    rw [natToChars_val, padDigits_val, natToChars_val]
    rw [zpow_zero, mul_one]
  · next x heq =>
    exact absurd rfl (heq (padDigits k (natToChars F)))

theorem map_asciiLower_body_head (c0 : Char) (rest : List Char)
    (hc0 : c0 ∈ digitChars) :
    ∀ target : List Char, target.head? = some 'n' ∨ target.head? = some 'i' →
      (c0 :: rest).map asciiLower ≠ target := by
  intro target htarget heq
  have hlow : asciiLower c0 = c0 := (digitChars_classes c0 hc0).2.1
  rcases htarget with ht | ht
  all_goals
    cases target with
    | nil => simp at ht
    | cons t0 t1 =>
      rw [List.map_cons] at heq
      injection heq with e1 e2
      injection ht with e3
      rw [hlow] at e1
      rw [e1, e3] at hc0
      revert hc0
      decide

theorem pyFloat_decimal_core (I F k : Nat) (neg : Bool) :
    pyFloat ((if neg then ['-'] else []) ++
        (natToChars I ++ '.' :: padDigits k (natToChars F))) =
      some (Val.num
        (if neg then
            -((I : ℚ) + (F : ℚ) / 10 ^ (padDigits k (natToChars F)).length)
          else (I : ℚ) + (F : ℚ) / 10 ^ (padDigits k (natToChars F)).length)) := by
  obtain ⟨c0, rest, hbody⟩ :
      ∃ c0 rest, natToChars I ++ '.' :: padDigits k (natToChars F) = c0 :: rest := by
    cases hx : natToChars I with
    | nil => exact absurd hx (natToChars_ne_nil I)
    | cons c r => exact ⟨c, r ++ '.' :: padDigits k (natToChars F), by simp⟩
  have hc0 : c0 ∈ digitChars := by
    have hmem : c0 ∈ natToChars I := by
      cases hx : natToChars I with
      | nil => exact absurd hx (natToChars_ne_nil I)
      | cons c r =>
        rw [hx, List.cons_append] at hbody
        injection hbody with e1 _
        rw [e1]
        exact List.mem_cons_self _ _
    exact natToChars_mem I c0 hmem
  have hlastpad :
      ∃ cl, (padDigits k (natToChars F)).getLast? = some cl ∧ cl ∈ digitChars := by
    obtain ⟨cl, hcl, hmem⟩ :=
      getLast_mem_of_ne_nil (padDigits k (natToChars F))
        (padDigits_ne_nil k (natToChars F) (natToChars_ne_nil F))
    exact ⟨cl, hcl, padDigits_mem k (natToChars F) (natToChars_mem F) cl hmem⟩
  obtain ⟨cl, hcl, hclmem⟩ := hlastpad
  -- The printed text contains no whitespace at either end.
  have hstrip :
      pyStrip ((if neg then ['-'] else []) ++ (c0 :: rest)) =
        (if neg then ['-'] else []) ++ (c0 :: rest) := by
    apply stripSet_eq_self
    · intro c hc
      cases neg with
      | true =>
        simp at hc
        rw [← hc]
        decide
      | false =>
        simp at hc
        rw [← hc]
        exact (digitChars_classes c0 hc0).2.2.2.1
    · intro c hc
      rw [getLast?_append_right _ _ (by simp), ← hbody,
        getLast?_append_right _ _ (by simp),
        getLast?_cons_right _ _
          (padDigits_ne_nil k (natToChars F) (natToChars_ne_nil F)),
        hcl] at hc
      injection hc with e
      rw [← e]
      exact (digitChars_classes cl hclmem).2.2.2.1
  have hsign :
      splitSign ((if neg then ['-'] else []) ++ (c0 :: rest)) = (neg, c0 :: rest) := by
    cases neg with
    | true => rfl
    | false =>
      simp only [Bool.false_eq_true, if_false, List.nil_append]
      exact splitSign_no_sign c0 rest
        (digitChars_classes c0 hc0).2.2.2.2.1
        (digitChars_classes c0 hc0).2.2.2.2.2.1
  simp only [pyFloat]
  rw [hbody, hstrip, hsign]
  rw [if_neg (map_asciiLower_body_head c0 rest hc0 _ (Or.inl (by decide)))]
  rw [if_neg (by
    push_neg
    exact ⟨map_asciiLower_body_head c0 rest hc0 _ (Or.inr (by decide)),
      map_asciiLower_body_head c0 rest hc0 _ (Or.inr (by decide))⟩)]
  rw [← hbody, pyFloatCore_decimal, Option.map_some']

theorem pyFloat_reprQ (q : ℚ) (h : q.den ∣ 10 ^ decExp q.den) :
    pyFloat (reprQ q) = some (Val.num q) := by
  have hden0 : q.den ≠ 0 := q.den_nz
  have hdvd : q.den ∣ q.num.natAbs * 10 ^ decExp q.den := Dvd.dvd.mul_left h _
  have hmul :
      q.num.natAbs * 10 ^ decExp q.den / q.den * q.den =
        q.num.natAbs * 10 ^ decExp q.den := Nat.div_mul_cancel hdvd
  have hkey :
      ((q.num.natAbs * 10 ^ decExp q.den / q.den / 10 ^ decExp q.den : ℕ) : ℚ) +
          ((q.num.natAbs * 10 ^ decExp q.den / q.den % 10 ^ decExp q.den : ℕ) : ℚ) /
            10 ^ (padDigits (decExp q.den)
              (natToChars
                (q.num.natAbs * 10 ^ decExp q.den / q.den %
                  10 ^ decExp q.den))).length =
        (q.num.natAbs : ℚ) / (q.den : ℚ) := by
    by_cases hk : decExp q.den = 0
    · rw [hk] at h ⊢
      have hden1 : q.den = 1 := Nat.dvd_one.mp (by simpa using h)
      rw [hden1]
      simp [Nat.mod_one]
    · have hk1 : 1 ≤ decExp q.den := by omega
      have hpow0 : 0 < 10 ^ decExp q.den := Nat.pos_pow_of_pos _ (by omega)
      have hFlt :
          q.num.natAbs * 10 ^ decExp q.den / q.den % 10 ^ decExp q.den <
            10 ^ decExp q.den := Nat.mod_lt _ hpow0
      have hlen :
          (padDigits (decExp q.den)
              (natToChars
                (q.num.natAbs * 10 ^ decExp q.den / q.den %
                  10 ^ decExp q.den))).length = decExp q.den :=
        padDigits_length _ _ (natToChars_length _ _ hk1 hFlt)
      rw [hlen]
      have hIF :
          10 ^ decExp q.den *
              (q.num.natAbs * 10 ^ decExp q.den / q.den / 10 ^ decExp q.den) +
            q.num.natAbs * 10 ^ decExp q.den / q.den % 10 ^ decExp q.den =
          q.num.natAbs * 10 ^ decExp q.den / q.den := Nat.div_add_mod _ _
      have e1 :
          ((10 : ℚ)) ^ decExp q.den *
              ((q.num.natAbs * 10 ^ decExp q.den / q.den / 10 ^ decExp q.den : ℕ) : ℚ) +
            ((q.num.natAbs * 10 ^ decExp q.den / q.den % 10 ^ decExp q.den : ℕ) : ℚ) =
          ((q.num.natAbs * 10 ^ decExp q.den / q.den : ℕ) : ℚ) := by
        exact_mod_cast congrArg (fun x : ℕ => (x : ℚ)) hIF
      have e2 :
          ((q.num.natAbs * 10 ^ decExp q.den / q.den : ℕ) : ℚ) * (q.den : ℚ) =
            (q.num.natAbs : ℚ) * 10 ^ decExp q.den := by
        exact_mod_cast congrArg (fun x : ℕ => (x : ℚ)) hmul
      have h10 : ((10 : ℚ)) ^ decExp q.den ≠ 0 := pow_ne_zero _ (by norm_num)
      have hdenQ : (q.den : ℚ) ≠ 0 := Nat.cast_ne_zero.mpr hden0
      field_simp
      linear_combination (q.den : ℚ) * e1 + e2
  by_cases hq : q < 0
  · have hneg : (q.num.natAbs : ℚ) = -(q.num : ℚ) := by
      have h2 : q.num < 0 := Rat.num_neg.mpr hq
      rw [Int.cast_natAbs]
      exact_mod_cast abs_of_neg h2
    have hbody : reprQ q =
        ['-'] ++
          (natToChars (q.num.natAbs * 10 ^ decExp q.den / q.den / 10 ^ decExp q.den) ++
            '.' :: padDigits (decExp q.den)
              (natToChars
                (q.num.natAbs * 10 ^ decExp q.den / q.den %
                  10 ^ decExp q.den))) := by
      simp only [reprQ]
      rw [if_pos h, if_pos hq, List.append_assoc]
    rw [hbody]
    have hfinal := pyFloat_decimal_core
      (q.num.natAbs * 10 ^ decExp q.den / q.den / 10 ^ decExp q.den)
      (q.num.natAbs * 10 ^ decExp q.den / q.den % 10 ^ decExp q.den)
      (decExp q.den) true
    simp only [if_true] at hfinal
    rw [hfinal, hkey, hneg, neg_div, neg_neg, Rat.num_div_den]
  · have hpos : (q.num.natAbs : ℚ) = (q.num : ℚ) := by
      have h2 : 0 ≤ q.num := Rat.num_nonneg.mpr (not_lt.mp hq)
      rw [Int.cast_natAbs]
      exact_mod_cast abs_of_nonneg h2
    have hbody : reprQ q =
        [] ++
          (natToChars (q.num.natAbs * 10 ^ decExp q.den / q.den / 10 ^ decExp q.den) ++
            '.' :: padDigits (decExp q.den)
              (natToChars
                (q.num.natAbs * 10 ^ decExp q.den / q.den %
                  10 ^ decExp q.den))) := by
      simp only [reprQ]
      rw [if_pos h, if_neg hq, List.append_assoc]
    rw [hbody]
    have hfinal := pyFloat_decimal_core
      (q.num.natAbs * 10 ^ decExp q.den / q.den / 10 ^ decExp q.den)
      (q.num.natAbs * 10 ^ decExp q.den / q.den % 10 ^ decExp q.den)
      (decExp q.den) false
    simp only [Bool.false_eq_true, if_false] at hfinal
    rw [hfinal, hkey, hpos]
    rw [Rat.num_div_den q]

/-! ## Shape of strings accepted by `strptime` -/

theorem digit_char_facts (c : Char) (h : c.isDigit = true) :
    c ≠ ' ' ∧ c ≠ ':' ∧ c.isWhitespace = false := by
  refine ⟨?_, ?_, ?_⟩
  · intro e; rw [e] at h; exact absurd h (by decide)
  · intro e; rw [e] at h; exact absurd h (by decide)
  · cases hw : c.isWhitespace
    · rfl
    · exfalso
      simp only [Char.isWhitespace, Bool.or_eq_true, decide_eq_true_eq] at hw
      rcases hw with ((e | e) | e) | e <;> (subst e; exact absurd h (by decide))

theorem expectChar_shape {c : Char} {s r : List Char}
    (h : expectChar c s = some r) : s = c :: r := by
  unfold expectChar at h
  split at h
  · next x r2 =>
    split at h
    · next hxc =>
      injection h with e
      rw [hxc, e]
    · cases h
  · cases h

theorem pdigit2_shape {v2 v1 : Nat → Bool} {s : List Char} {p : Nat × List Char}
    (h : pdigit2 v2 v1 s = some p) :
    ∃ pre, s = pre ++ p.2 ∧ pre ≠ [] ∧ ∀ c ∈ pre, c.isDigit = true := by
  unfold pdigit2 at h
  split at h
  · next a b r =>
    split at h
    · next hcond =>
      injection h with e
      rw [← e]
      refine ⟨[a, b], rfl, by simp, ?_⟩
      intro c hc
      simp at hc
      simp at hcond
      rcases hc with rfl | rfl
      · exact hcond.1.1
      · exact hcond.1.2
    · split at h
      · next hcond =>
        injection h with e
        rw [← e]
        refine ⟨[a], rfl, by simp, ?_⟩
        intro c hc
        simp at hc
        simp at hcond
        rw [hc]
        exact hcond.1
      · cases h
  · next a =>
    split at h
    · next hcond =>
      injection h with e
      rw [← e]
      refine ⟨[a], rfl, by simp, ?_⟩
      intro c hc
      simp at hc
      simp at hcond
      rw [hc]
      exact hcond.1
    · cases h
  · cases h

theorem pdigit4_shape {s : List Char} {p : Nat × List Char}
    (h : pdigit4 s = some p) :
    ∃ pre, s = pre ++ p.2 ∧ pre ≠ [] ∧ ∀ c ∈ pre, c.isDigit = true := by
  unfold pdigit4 at h
  split at h
  · next a b c d r =>
    split at h
    · next hcond =>
      injection h with e
      rw [← e]
      refine ⟨[a, b, c, d], rfl, by simp, ?_⟩
      intro x hx
      simp at hx
      simp at hcond
      rcases hx with rfl | rfl | rfl | rfl
      · exact hcond.1.1.1
      · exact hcond.1.1.2
      · exact hcond.1.2
      · exact hcond.2
    · cases h
  · cases h

theorem strptime_shape {s : List Char} {t : Timestamp} (h : strptime s = some t) :
    ∃ m d y hh mi se : List Char,
      s = m ++ '/' :: (d ++ '/' :: (y ++ ' ' :: (hh ++ ':' :: (mi ++ ':' :: se)))) ∧
      (m ≠ [] ∧ ∀ c ∈ m, c.isDigit = true) ∧
      (d ≠ [] ∧ ∀ c ∈ d, c.isDigit = true) ∧
      (y ≠ [] ∧ ∀ c ∈ y, c.isDigit = true) ∧
      (hh ≠ [] ∧ ∀ c ∈ hh, c.isDigit = true) ∧
      (mi ≠ [] ∧ ∀ c ∈ mi, c.isDigit = true) ∧
      (se ≠ [] ∧ ∀ c ∈ se, c.isDigit = true) := by
  unfold strptime at h
  simp only [Option.bind_eq_some] at h
  obtain ⟨mo, hmo, r1, hr1, dy, hdy, r2, hr2, yr, hyr, r3, hr3,
    hr, hhr, r4, hr4, mi, hmi, r5, hr5, sc, hsc, hfin⟩ := h
  have hend : sc.2 = [] := by
    split at hfin
    · next hcond => exact hcond.1
    · cases hfin
  obtain ⟨pm, hpm, hpmn, hpmd⟩ := pdigit2_shape hmo
  obtain ⟨pd, hpd, hpdn, hpdd⟩ := pdigit2_shape hdy
  obtain ⟨py, hpy, hpyn, hpyd⟩ := pdigit4_shape hyr
  obtain ⟨ph, hph, hphn, hphd⟩ := pdigit2_shape hhr
  obtain ⟨pmi, hpmi, hpmin, hpmid⟩ := pdigit2_shape hmi
  obtain ⟨pse, hpse, hpsen, hpsed⟩ := pdigit2_shape hsc
  refine ⟨pm, pd, py, ph, pmi, pse, ?_, ⟨hpmn, hpmd⟩, ⟨hpdn, hpdd⟩,
    ⟨hpyn, hpyd⟩, ⟨hphn, hphd⟩, ⟨hpmin, hpmid⟩, ⟨hpsen, hpsed⟩⟩
  rw [hpm, expectChar_shape hr1, hpd, expectChar_shape hr2, hpy,
    expectChar_shape hr3, hph, expectChar_shape hr4, hpmi,
    expectChar_shape hr5, hpse, hend, List.append_nil]

/-! ## The `": "` split on well-shaped lines -/

theorem noCS_cons_of_ne (x : Char) (l : List Char) (hx : x ≠ ':')
    (hl : noCS l = true) : noCS (x :: l) = true := by
  cases l with
  | nil => rfl
  | cons y r =>
    unfold noCS
    simp [hx, hl]

theorem noCS_cons_colon (y : Char) (r : List Char) (hy : y ≠ ' ')
    (hl : noCS (y :: r) = true) : noCS (':' :: y :: r) = true := by
  unfold noCS
  simp [hy, hl]

theorem noCS_digits_append (l : List Char) (hl : noCS l = true) :
    ∀ a : List Char, (∀ c ∈ a, c.isDigit = true) → noCS (a ++ l) = true := by
  intro a
  induction a with
  | nil => intro _; exact hl
  | cons x a2 ih =>
    intro ha
    have hx : x ≠ ':' :=
      (digit_char_facts x (ha x (List.mem_cons_self _ _))).2.1
    rw [List.cons_append]
    exact noCS_cons_of_ne x (a2 ++ l) hx
      (ih fun c hc => ha c (List.mem_cons_of_mem _ hc))

theorem noCS_digits (a : List Char) (ha : ∀ c ∈ a, c.isDigit = true) :
    noCS a = true := by
  have := noCS_digits_append [] rfl a ha
  rwa [List.append_nil] at this

theorem noCS_of_no_colon (l : List Char) (h : ∀ c ∈ l, c ≠ ':') :
    noCS l = true := by
  induction l with
  | nil => rfl
  | cons x r ih =>
    exact noCS_cons_of_ne x r (h x (List.mem_cons_self _ _))
      (ih fun c hc => h c (List.mem_cons_of_mem _ hc))

theorem splitCS_cons_ne (x y : Char) (r : List Char) (h : ¬(x = ':' ∧ y = ' ')) :
    splitCS (x :: y :: r) =
      match splitCS (y :: r) with
      | [] => [[x]]
      | h2 :: t => (x :: h2) :: t := by
  conv_lhs => unfold splitCS
  split
  · rename_i heq
    injection heq with e1 e2
    injection e2 with e3 _
    exact absurd ⟨e1, e3⟩ h
  · rename_i hne heq
    injection heq with e1 e2
    rw [e1, e2]
  · rename_i heq
    cases heq

theorem splitCS_append_sep (b : List Char) :
    ∀ a : List Char, noCS a = true →
      splitCS (a ++ ':' :: ' ' :: b) = a :: splitCS b := by
  intro a
  induction a with
  | nil => intro _; rfl
  | cons x a2 ih =>
    intro ha
    cases a2 with
    | nil =>
      rw [List.cons_append, List.nil_append,
        splitCS_cons_ne x ':' (' ' :: b) (by intro hc; exact absurd hc.2 (by decide))]
      have hfirst : splitCS (':' :: ' ' :: b) = [] :: splitCS b := rfl
      rw [hfirst]
    | cons y a3 =>
      have hxy : ¬(x = ':' ∧ y = ' ') := by
        intro hc
        rw [hc.1, hc.2] at ha
        unfold noCS at ha
        simp at ha
      have ha2 : noCS (y :: a3) = true := by
        unfold noCS at ha
        simp at ha
        exact ha.2
      rw [List.cons_append, List.cons_append,
        splitCS_cons_ne x y (a3 ++ ':' :: ' ' :: b) hxy]
      have hrec := ih ha2
      rw [List.cons_append] at hrec
      rw [hrec]

theorem splitCS_singleton (x : Char) : splitCS [x] = [[x]] := by
  conv_lhs => unfold splitCS
  split
  · rename_i heq
    injection heq with _ e2
    cases e2
  · rename_i hne heq
    injection heq with e1 e2
    rw [← e2, ← e1]
    rfl
  · rename_i heq
    cases heq

theorem splitCS_single : ∀ l : List Char, noCS l = true → splitCS l = [l] := by
  intro l
  induction l with
  | nil => intro _; rfl
  | cons x r ih =>
    intro hl
    cases r with
    | nil => exact splitCS_singleton x
    | cons y r2 =>
      have hxy : ¬(x = ':' ∧ y = ' ') := by
        intro hc
        rw [hc.1, hc.2] at hl
        unfold noCS at hl
        simp at hl
      have hr : noCS (y :: r2) = true := by
        unfold noCS at hl
        simp at hl
        exact hl.2
      rw [splitCS_cons_ne x y r2 hxy, ih hr]

/-! ## Character facts about printed values and timestamps -/

theorem reprQ_no_colon (q : ℚ) : ∀ c ∈ reprQ q, c ≠ ':' := by
  intro c hc
  simp only [reprQ] at hc
  by_cases hdvd : q.den ∣ 10 ^ decExp q.den
  · rw [if_pos hdvd] at hc
    rcases List.mem_append.mp hc with hc | hc
    · rcases List.mem_append.mp hc with hc | hc
      · by_cases hq : q < 0
        · rw [if_pos hq, List.mem_singleton] at hc
          rw [hc]; decide
        · rw [if_neg hq] at hc
          cases hc
      · exact (digitChars_classes c (natToChars_mem _ c hc)).2.2.1
    · rcases List.mem_cons.mp hc with hc | hc
      · rw [hc]; decide
      · exact (digitChars_classes c
          (padDigits_mem _ _ (natToChars_mem _) c hc)).2.2.1
  · rw [if_neg hdvd, List.mem_singleton] at hc
    rw [hc]; decide

theorem reprQ_last_digit (q : ℚ) :
    ∀ c, (reprQ q).getLast? = some c → c ∈ digitChars := by
  intro c hc
  simp only [reprQ] at hc
  by_cases hdvd : q.den ∣ 10 ^ decExp q.den
  · rw [if_pos hdvd,
      getLast?_append_right _ _ (by simp),
      getLast?_cons_right _ _
        (padDigits_ne_nil _ _ (natToChars_ne_nil _))] at hc
    obtain ⟨cl, hcl, hmem⟩ :=
      getLast_mem_of_ne_nil _
        (padDigits_ne_nil (decExp q.den) _ (natToChars_ne_nil _))
    rw [hcl] at hc
    injection hc with e
    rw [← e]
    exact padDigits_mem _ _ (natToChars_mem _) cl hmem
  · rw [if_neg hdvd] at hc
    simp at hc
    rw [← hc]; decide

theorem savedValChars_ne_nil (v : Option Val) : savedValChars v ≠ [] := by
  cases v with
  | none => decide
  | some x =>
    cases x with
    | nan => decide
    | inf b => cases b <;> decide
    | num q =>
      show reprQ q ≠ []
      simp only [reprQ]
      by_cases hdvd : q.den ∣ 10 ^ decExp q.den
      · rw [if_pos hdvd]; simp
      · rw [if_neg hdvd]; simp

theorem savedValChars_no_colon (v : Option Val) :
    ∀ c ∈ savedValChars v, c ≠ ':' := by
  cases v with
  | none => decide
  | some x =>
    cases x with
    | nan => decide
    | inf b => cases b <;> decide
    | num q => exact reprQ_no_colon q

theorem savedValChars_last_not_ws (v : Option Val) :
    ∀ c, (savedValChars v).getLast? = some c → c.isWhitespace = false := by
  cases v with
  | none =>
    intro c hc
    have h0 : (savedValChars none).getLast? = some 'N' := by decide
    rw [h0] at hc
    injection hc with e
    rw [← e]; decide
  | some x =>
    cases x with
    | nan =>
      intro c hc
      have h0 : (savedValChars (some Val.nan)).getLast? = some 'n' := by decide
      rw [h0] at hc
      injection hc with e
      rw [← e]; decide
    | inf b =>
      cases b <;>
        (intro c hc
         first
           | (have h0 : (savedValChars (some (Val.inf true))).getLast? = some 'f' := by
                decide
              rw [h0] at hc
              injection hc with e
              rw [← e]; decide)
           | (have h0 : (savedValChars (some (Val.inf false))).getLast? = some 'f' := by
                decide
              rw [h0] at hc
              injection hc with e
              rw [← e]; decide))
    | num q =>
      intro c hc
      exact (digitChars_classes c (reprQ_last_digit q c hc)).2.2.2.1

theorem vmul_one (x : Val) : vmul x (Val.num 1) = x := by
  cases x with
  | nan => rfl
  | num a => show Val.num (a * 1) = Val.num a; rw [mul_one]
  | inf s =>
    show (if (1 : ℚ) = 0 then Val.nan else Val.inf (xor s (decide ((1 : ℚ) < 0)))) =
      Val.inf s
    rw [if_neg one_ne_zero, decide_eq_false (by norm_num : ¬(1 : ℚ) < 0)]
    rw [Bool.xor_false]

theorem pyFloat_savedVal (v : Option Val) (hv : valWritable v = true) :
    pyFloat (savedValChars v) = some (unOptVal v) := by
  cases v with
  | none => decide
  | some x =>
    cases x with
    | nan => decide
    | inf b => cases b <;> decide
    | num q =>
      show pyFloat (reprQ q) = some (Val.num q)
      exact pyFloat_reprQ q (of_decide_eq_true hv)

theorem strptime_string_facts {s : List Char} {t : Timestamp}
    (h : strptime s = some t) :
    pyStrip s = s ∧ noCS s = true ∧ s ≠ [] ∧
      (∀ c, s.head? = some c → c.isDigit = true) := by
  obtain ⟨m, d, y, hh, mi, se, hs, hm, hd, hy, hhh, hmi, hse⟩ := strptime_shape h
  obtain ⟨m0, m2, hm0⟩ : ∃ m0 m2, m = m0 :: m2 := by
    cases hx : m with
    | nil => exact absurd hx hm.1
    | cons a b => exact ⟨a, b, rfl⟩
  obtain ⟨mi0, mi2, hmi0⟩ : ∃ mi0 mi2, mi = mi0 :: mi2 := by
    cases hx : mi with
    | nil => exact absurd hx hmi.1
    | cons a b => exact ⟨a, b, rfl⟩
  obtain ⟨se0, se2, hse0⟩ : ∃ se0 se2, se = se0 :: se2 := by
    cases hx : se with
    | nil => exact absurd hx hse.1
    | cons a b => exact ⟨a, b, rfl⟩
  refine ⟨?_, ?_, ?_, ?_⟩
  · apply stripSet_eq_self
    · intro c hc
      rw [hs, hm0, List.cons_append] at hc
      injection hc with e
      rw [← e]
      exact (digit_char_facts m0 (hm.2 m0 (hm0 ▸ List.mem_cons_self _ _))).2.2
    · intro c hc
      rw [hs,
        getLast?_append_right _ _ (by simp),
        getLast?_cons_right _ _ (by simp),
        getLast?_append_right _ _ (by simp),
        getLast?_cons_right _ _ (by simp),
        getLast?_append_right _ _ (by simp),
        getLast?_cons_right _ _ (by simp),
        getLast?_append_right _ _ (by simp),
        getLast?_cons_right _ _ (by simp),
        getLast?_append_right _ _ (by rw [hse0]; simp),
        getLast?_cons_right _ _ hse.1] at hc
      obtain ⟨cl, hcl, hmem⟩ := getLast_mem_of_ne_nil se hse.1
      rw [hcl] at hc
      injection hc with e
      rw [← e]
      exact (digit_char_facts cl (hse.2 cl hmem)).2.2
  · rw [hs]
    have h6 : noCS (':' :: se) = true := by
      rw [hse0]
      exact noCS_cons_colon se0 se2
        (digit_char_facts se0 (hse.2 se0 (hse0 ▸ List.mem_cons_self _ _))).1
        (noCS_digits (se0 :: se2) (hse0 ▸ hse.2))
    have h5 : noCS (mi ++ ':' :: se) = true := noCS_digits_append _ h6 mi hmi.2
    have h4 : noCS (':' :: (mi ++ ':' :: se)) = true := by
      rw [hmi0, List.cons_append]
      refine noCS_cons_colon mi0 (mi2 ++ ':' :: se)
        (digit_char_facts mi0 (hmi.2 mi0 (hmi0 ▸ List.mem_cons_self _ _))).1 ?_
      rw [← List.cons_append, ← hmi0]
      exact h5
    have h3 : noCS (hh ++ ':' :: (mi ++ ':' :: se)) = true :=
      noCS_digits_append _ h4 hh hhh.2
    have h2b : noCS (' ' :: (hh ++ ':' :: (mi ++ ':' :: se))) = true :=
      noCS_cons_of_ne ' ' _ (by decide) h3
    have h2 : noCS (y ++ ' ' :: (hh ++ ':' :: (mi ++ ':' :: se))) = true :=
      noCS_digits_append _ h2b y hy.2
    have h1b : noCS ('/' :: (y ++ ' ' :: (hh ++ ':' :: (mi ++ ':' :: se)))) = true :=
      noCS_cons_of_ne '/' _ (by decide) h2
    have h1 : noCS (d ++ '/' :: (y ++ ' ' :: (hh ++ ':' :: (mi ++ ':' :: se)))) = true :=
      noCS_digits_append _ h1b d hd.2
    have h0b :
        noCS ('/' :: (d ++ '/' :: (y ++ ' ' :: (hh ++ ':' :: (mi ++ ':' :: se))))) =
          true :=
      noCS_cons_of_ne '/' _ (by decide) h1
    exact noCS_digits_append _ h0b m hm.2
  · rw [hs, hm0]
    simp
  · intro c hc
    rw [hs, hm0, List.cons_append] at hc
    injection hc with e
    rw [← e]
    exact hm.2 m0 (hm0 ▸ List.mem_cons_self _ _)

/-! ## The round trip, per point and per file -/

theorem parseLine_saved (ts : List Char) (v : Option Val) (t : Timestamp)
    (hts : strptime ts = some t) (hv : valWritable v = true) :
    parseLine (Val.num 1) (ts ++ String.toList ": " ++ savedValChars v) =
      some (t, unOptVal v) := by
  obtain ⟨hstrip_ts, hnoCS_ts, hts_ne, hts_head⟩ := strptime_string_facts hts
  have hline : ts ++ String.toList ": " ++ savedValChars v =
      ts ++ ':' :: ' ' :: savedValChars v := by
    rw [List.append_assoc]
    rfl
  rw [hline]
  unfold parseLine
  have hstrip : pyStrip (ts ++ ':' :: ' ' :: savedValChars v) =
      ts ++ ':' :: ' ' :: savedValChars v := by
    apply stripSet_eq_self
    · intro c hc
      rw [head?_append_left _ _ hts_ne] at hc
      have := hts_head c hc
      exact (digit_char_facts c this).2.2
    · intro c hc
      rw [getLast?_append_right _ _ (by simp),
        getLast?_cons_right _ _ (by simp),
        getLast?_cons_right _ _ (savedValChars_ne_nil v)] at hc
      exact savedValChars_last_not_ws v c hc
  rw [hstrip, splitCS_append_sep (savedValChars v) ts hnoCS_ts,
    splitCS_single (savedValChars v)
      (noCS_of_no_colon _ (savedValChars_no_colon v))]
  simp only [hts, pyFloat_savedVal v hv, vmul_one]

theorem loadScan_save (d : TimeSeriesData)
    (hts : ∀ p ∈ d, (strptime p.1).isSome = true)
    (hv : ∀ p ∈ d, valWritable p.2 = true) :
    loadScan (Val.num 1) (save_time_series d) = (loadedExpected d, 0) := by
  induction d with
  | nil => rfl
  | cons p r ih =>
    obtain ⟨t, ht⟩ :=
      Option.isSome_iff_exists.mp (hts p (List.mem_cons_self _ _))
    have hrest := ih
      (fun p2 h2 => hts p2 (List.mem_cons_of_mem _ h2))
      (fun p2 h2 => hv p2 (List.mem_cons_of_mem _ h2))
    unfold save_time_series at hrest ⊢
    rw [List.map_cons, loadScan,
      parseLine_saved p.1 p.2 t ht (hv p (List.mem_cons_self _ _)), hrest]
    unfold loadedExpected at hrest ⊢
    rw [List.map_cons]
    have hstamp : loadedStamp p.1 = t := by
      unfold loadedStamp
      rw [ht]
      rfl
    rw [hstamp]

/-- C2 (counterexample): the claim's round trip fails as stated — for a
series holding one point with a missing value, the written line carries the
literal `NaN`, and `load_data_file` parses it back as the float `nan`
(Python's `float("NaN")` succeeds), not as the claimed `None`. -/
theorem round_trip_claim_counterexample :
    ¬ roundTripAsClaimed [(String.toList "01/15/2024 09:30:00", none)] := by
  unfold roundTripAsClaimed
  decide

/-- C2 (amended): for every `TimeSeriesData` whose timestamps parse under
the load format (`%m/%d/%Y %H:%M:%S`) and whose values are Python-float
representable (decimal-denominator rationals, `nan`, infinities, or
missing), saving and loading at scale 1.0 reproduces the (timestamp, value)
pairs in order with no skipped lines — except that every point whose
written line carried the literal token `NaN` is loaded as the float `nan`,
not as `None`; for a nonempty series the load succeeds with exactly that
list. -/
theorem save_load_round_trip_amended (d : TimeSeriesData)
    (hts : ∀ p ∈ d, (strptime p.1).isSome = true)
    (hv : ∀ p ∈ d, valWritable p.2 = true) :
    (loadScan (Val.num 1) (save_time_series d)).1 = loadedExpected d ∧
    (loadScan (Val.num 1) (save_time_series d)).2 = 0 ∧
    (d ≠ [] →
      load_data_file (save_time_series d) (Val.num 1) =
        Except.ok (loadedExpected d)) := by
  have hscan := loadScan_save d hts hv
  refine ⟨by rw [hscan], by rw [hscan], ?_⟩
  intro hne
  unfold load_data_file
  rw [hscan]
  have hemp : (loadedExpected d).isEmpty = false := by
    unfold loadedExpected
    cases d with
    | nil => exact absurd rfl hne
    | cons p r => rfl
  simp [hemp]

theorem save_load_round_trip_amended_witness :
    (loadScan (Val.num 1)
          (save_time_series [(String.toList "01/15/2024 09:30:00", none)])).1 =
        loadedExpected [(String.toList "01/15/2024 09:30:00", none)] ∧
      (loadScan (Val.num 1)
          (save_time_series [(String.toList "01/15/2024 09:30:00", none)])).2 = 0 ∧
      ([(String.toList "01/15/2024 09:30:00", (none : Option Val))] ≠ [] →
        load_data_file
            (save_time_series [(String.toList "01/15/2024 09:30:00", none)])
            (Val.num 1) =
          Except.ok (loadedExpected [(String.toList "01/15/2024 09:30:00", none)])) :=
  save_load_round_trip_amended [(String.toList "01/15/2024 09:30:00", none)]
    (by decide) (by decide)

end EsxViz
